import Mathlib

/-!
The EWP document model of package `iarewp`.

A shallow embedding of `iarewp.go` (package `iarewp`): the `Ewp` / `File` /
`Excluded` records, the `ByFileName` sort adapter, `FileName`, `MakeFile`,
`InsertFile` and `Contains`, together with the three Go primitives they rest
on: string comparison, `strings.Split` with a one-byte separator, and
`sort.Sort` of package `sort`, that is pattern-defeating quicksort with its
insertion sort, heap sort, partitions and pivot choice, driven through `Len` /
`Less` / `Swap`.

Conventions of the embedding:

* a Go `string` is a finite sequence of bytes, `List (Fin 256)`;
* a Go slice whose nil-ness the program inspects is an `Option (List _)`,
  `none` being the nil slice; other slices are plain lists;
* a Go pointer field that may be nil is an `Option`; method receivers are taken
  to be non-nil;
* a run-time panic (index out of range) is the result `none`;
* a Go loop whose number of passes is not fixed beforehand takes, as its first
  argument, the number of passes it may make; running out of them is `none` as
  well, and the theorems show that the program never does.
-/

namespace Iarewp

/-! ## Go strings -/

/-- One byte of a Go string. -/
abbrev Byte := Fin 256

/-- A Go `string`: an immutable sequence of bytes. -/
abbrev GoString := List Byte

/-- The bytes of an ASCII literal (each character is its own code). -/
def ascii (s : String) : GoString :=
  s.data.map (fun c => Fin.ofNat c.toNat)

/-- Go's `<` on strings: byte-wise lexicographic comparison, a proper prefix
being smaller. -/
def strLess : GoString → GoString → Bool
  | [], [] => false
  | [], _ :: _ => true
  | _ :: _, [] => false
  | a :: s, b :: t => if a < b then true else if b < a then false else strLess s t

/-- The byte `\`, the only separator the program splits on. -/
def backslash : Byte := 92

namespace strings

/-- Go's `strings.IndexByte(s, c)`: position of the first `c` in `s`; `none`
stands for the result `-1`. -/
def IndexByte : GoString → Byte → Option Nat
  | [], _ => none
  | b :: s, c => if b = c then some 0 else (IndexByte s c).map (· + 1)

/-- Go's `strings.Count(s, sep)` for a one-byte `sep`. -/
def Count : GoString → Byte → Nat
  | [], _ => 0
  | b :: s, c => if b = c then Count s c + 1 else Count s c

/-- The loop of `genSplit` : at most `n` times, cut `s` at the first separator
(`a[i] = s[:m]; s = s[m+len(sep):]`), then store what is left (`a[i] = s`). -/
def genSplitLoop (sep : Byte) : Nat → GoString → List GoString
  | 0, s => [s]
  | n + 1, s =>
    match IndexByte s sep with
    | none => [s]
    | some m => s.take m :: genSplitLoop sep n (s.drop (m + 1))

/-- Go's `strings.Split(s, sep)` for a one-byte separator, as `genSplit(s, sep, 0, -1)`
computes it: `n = Count(s, sep) + 1` slots, the loop running `n - 1` times. -/
def Split (s : GoString) (sep : Byte) : List GoString :=
  genSplitLoop sep (Count s sep) s

end strings

/-! ## Data model -/

/-- Go's `xml.Name`. -/
structure XmlName where
  Space : GoString
  Local : GoString
deriving DecidableEq, Repr

/-- The anonymous `struct { Unused string }` of `Ewp.Configuration` and `Ewp.Group`. -/
structure RawBlock where
  Unused : GoString
deriving DecidableEq, Repr

/-- Excluded defines the configurations that omit the file. -/
structure Excluded where
  Configurations : List GoString
deriving DecidableEq, Repr

/-- File defines the file: its name and the optional (`*Excluded`) exclusions. -/
structure File where
  Name : GoString
  Exclusions : Option Excluded
deriving DecidableEq, Repr

/-- Ewp is the top-level type of the EWP. -/
structure Ewp where
  XMLName : XmlName
  FileVersion : Int
  Configuration : List RawBlock
  Group : List RawBlock
  Files : List File
deriving DecidableEq, Repr

/-- ProjectDir is the project directory prefix for file paths. -/
def ProjectDir : GoString := ascii "$PROJ_DIR$"

/-! ## ByFileName: the sort adapter -/

namespace ByFileName

/-- Len is a method of the sort interface. -/
def Len (fs : List File) : Nat := fs.length

/-- Less is a method of the sort interface: `fs[i].Name < fs[j].Name`; an index
out of range panics. -/
def Less (fs : List File) (i j : Nat) : Option Bool :=
  match fs[i]?, fs[j]? with
  | some a, some b => some (strLess a.Name b.Name)
  | _, _ => none

/-- Swap is a method of the sort interface: `fs[i], fs[j] = fs[j], fs[i]`; an
index out of range panics. -/
def Swap (fs : List File) (i j : Nat) : Option (List File) :=
  match fs[i]?, fs[j]? with
  | some a, some b => some ((fs.set i b).set j a)
  | _, _ => none

end ByFileName

/-! ## Package sort -/

/-- The inner loop of Go's `insertionSort(data, a, b)`, started at `j`:
`for ; j > a && data.Less(j, j-1); j-- { data.Swap(j, j-1) }`. -/
def insertionSortInner (a : Nat) : Nat → List File → Option (List File)
  | 0, data => some data
  | j + 1, data =>
    if a < j + 1 then
      match ByFileName.Less data (j + 1) j with
      | none => none
      | some true =>
        match ByFileName.Swap data (j + 1) j with
        | none => none
        | some data1 => insertionSortInner a j data1
      | some false => some data
    else some data

/-- The outer loop of Go's `insertionSort(data, a, b)`, with `n` iterations left
and the loop variable at `i`: `for ; i < b; i++ { inner loop from j := i }`. -/
def insertionSortOuter (a : Nat) : Nat → Nat → List File → Option (List File)
  | 0, _, data => some data
  | n + 1, i, data =>
    match insertionSortInner a i data with
    | none => none
    | some data1 => insertionSortOuter a n (i + 1) data1

/-- Go's `insertionSort(data, a, b)`: `for i := a + 1; i < b; i++`, that is
`b - (a + 1)` iterations from `i = a + 1`. -/
def insertionSort (data : List File) (a b : Nat) : Option (List File) :=
  insertionSortOuter a (b - (a + 1)) (a + 1) data

/-! ## Package sort: heap sort -/

/-- The loop of Go's `siftDown(data, lo, hi, first)` with `root` where the loop
has it: `child := 2*root + 1`, return when `child >= hi`, step to the larger
child, return when the root is not less than it, else swap and descend. The
first argument bounds the number of passes; running out of it is `none`. -/
def siftDownLoop (hi first : Nat) : Nat → Nat → List File → Option (List File)
  | 0, _, _ => none
  | n + 1, root, data =>
    if hi ≤ 2 * root + 1 then some data
    else
      match (if 2 * root + 1 + 1 < hi then
          ByFileName.Less data (first + (2 * root + 1)) (first + (2 * root + 1) + 1)
        else some false) with
      | none => none
      | some up =>
        match ByFileName.Less data (first + root)
            (first + (if up then 2 * root + 1 + 1 else 2 * root + 1)) with
        | none => none
        | some false => some data
        | some true =>
          match ByFileName.Swap data (first + root)
              (first + (if up then 2 * root + 1 + 1 else 2 * root + 1)) with
          | none => none
          | some data1 =>
            siftDownLoop hi first n (if up then 2 * root + 1 + 1 else 2 * root + 1) data1

/-- Go's `siftDown(data, lo, hi, first)`; the root index grows with every pass
and stays below `hi`, so `hi + 1` passes are enough. -/
def siftDown (data : List File) (lo hi first : Nat) : Option (List File) :=
  siftDownLoop hi first (hi + 1) lo data

/-- The first loop of `heapSort`, `for i := (hi - 1) / 2; i >= 0; i--`, with
`i + 1` as the counter: `siftDown(data, i, hi, first)`. -/
def heapSortBuild (hi first : Nat) : Nat → List File → Option (List File)
  | 0, data => some data
  | i + 1, data =>
    match siftDown data i hi first with
    | none => none
    | some data1 => heapSortBuild hi first i data1

/-- The second loop of `heapSort`, `for i := hi - 1; i >= 0; i--`, with `i + 1`
as the counter: `data.Swap(first, first+i); siftDown(data, lo, i, first)`. -/
def heapSortPop (first : Nat) : Nat → List File → Option (List File)
  | 0, data => some data
  | i + 1, data =>
    match ByFileName.Swap data first (first + i) with
    | none => none
    | some data1 =>
      match siftDown data1 0 i first with
      | none => none
      | some data2 => heapSortPop first i data2

/-- Go's `heapSort(data, a, b)`: `first := a; lo := 0; hi := b - a`. -/
def heapSort (data : List File) (a b : Nat) : Option (List File) :=
  match heapSortBuild (b - a) a ((b - a - 1) / 2 + 1) data with
  | none => none
  | some data1 => heapSortPop a (b - a) data1

/-! ## Package sort: pattern-defeating quicksort, behind `sort.Sort` since Go 1.19 -/

/-- Go's `sortedHint`. -/
inductive sortedHint where
  | unknownHint
  | increasingHint
  | decreasingHint
deriving DecidableEq, Repr

/-- Go's `(*xorshift).Next` on a `uint64` state: the new state, which is also
the value returned. -/
def xorshiftNext (r : Nat) : Nat :=
  let r1 := r ^^^ ((r <<< 13) % 18446744073709551616)
  let r2 := r1 ^^^ (r1 >>> 7)
  r2 ^^^ ((r2 <<< 17) % 18446744073709551616)

/-- Go's `bits.Len(uint(n))`: the number of bits of `n`. -/
def bitsLen (n : Nat) : Nat := if n = 0 then 0 else Nat.log2 n + 1

/-- Go's `nextPowerOfTwo(length)`: `1 << bits.Len(uint(length))`. -/
def nextPowerOfTwo (length : Nat) : Nat := 1 <<< bitsLen length

/-- The loop of `breakPatterns`, `for i := 0; i < 3; i++`, with the passes left
as counter: `other := int(uint(random.Next()) & (modulus - 1))`, reduced by
`length` when not below it, then `data.Swap(idx-1+i, a+other)`. -/
def breakPatternsLoop (a length modulus idx : Nat) :
    Nat → Nat → Nat → List File → Option (List File)
  | 0, _, _, data => some data
  | n + 1, i, random, data =>
    match ByFileName.Swap data (idx - 1 + i)
        (a + (if length ≤ xorshiftNext random &&& (modulus - 1)
          then (xorshiftNext random &&& (modulus - 1)) - length
          else xorshiftNext random &&& (modulus - 1))) with
    | none => none
    | some data1 => breakPatternsLoop a length modulus idx n (i + 1) (xorshiftNext random) data1

/-- Go's `breakPatterns(data, a, b)`. -/
def breakPatterns (data : List File) (a b : Nat) : Option (List File) :=
  if 8 ≤ b - a then
    breakPatternsLoop a (b - a) (nextPowerOfTwo (b - a)) (a + (b - a) / 4 * 2 - 1) 3 0 (b - a) data
  else some data

/-- Go's `order2(data, a, b, swaps)`: the two indices in order, and the swap
count. -/
def order2 (data : List File) (a b swaps : Nat) : Option (Nat × Nat × Nat) :=
  match ByFileName.Less data b a with
  | none => none
  | some true => some (b, a, swaps + 1)
  | some false => some (a, b, swaps)

/-- Go's `median(data, a, b, c, swaps)`: the index of the median, and the swap
count. -/
def median (data : List File) (a b c swaps : Nat) : Option (Nat × Nat) :=
  match order2 data a b swaps with
  | none => none
  | some (a1, b1, swaps1) =>
    match order2 data b1 c swaps1 with
    | none => none
    | some (b2, _, swaps2) =>
      match order2 data a1 b2 swaps2 with
      | none => none
      | some (_, b3, swaps3) => some (b3, swaps3)

/-- Go's `medianAdjacent(data, a, swaps)`. -/
def medianAdjacent (data : List File) (a swaps : Nat) : Option (Nat × Nat) :=
  median data (a - 1) a (a + 1) swaps

/-- The index and swap count `choosePivot` has before its final `switch`. -/
def choosePivotIndex (data : List File) (a b : Nat) : Option (Nat × Nat) :=
  if 8 ≤ b - a then
    if 50 ≤ b - a then
      match medianAdjacent data (a + (b - a) / 4 * 1) 0 with
      | none => none
      | some (i, swaps1) =>
        match medianAdjacent data (a + (b - a) / 4 * 2) swaps1 with
        | none => none
        | some (j, swaps2) =>
          match medianAdjacent data (a + (b - a) / 4 * 3) swaps2 with
          | none => none
          | some (k, swaps3) => median data i j k swaps3
    else median data (a + (b - a) / 4 * 1) (a + (b - a) / 4 * 2) (a + (b - a) / 4 * 3) 0
  else some (a + (b - a) / 4 * 2, 0)

/-- Go's `choosePivot(data, a, b)`; `maxSwaps` is `4 * 3`. -/
def choosePivot (data : List File) (a b : Nat) : Option (Nat × sortedHint) :=
  match choosePivotIndex data a b with
  | none => none
  | some (j, swaps) =>
    some (j, if swaps = 0 then sortedHint.increasingHint
      else if swaps = 12 then sortedHint.decreasingHint else sortedHint.unknownHint)

/-- The loop of `reverseRange`: `for i < j { data.Swap(i, j); i++; j-- }`. The
first argument bounds the number of passes; running out of it is `none`. -/
def reverseRangeLoop : Nat → Nat → Nat → List File → Option (List File)
  | 0, _, _, _ => none
  | n + 1, i, j, data =>
    if i < j then
      match ByFileName.Swap data i j with
      | none => none
      | some data1 => reverseRangeLoop n (i + 1) (j - 1) data1
    else some data

/-- Go's `reverseRange(data, a, b)`: `i := a; j := b - 1`. -/
def reverseRange (data : List File) (a b : Nat) : Option (List File) :=
  reverseRangeLoop (b - a + 1) a (b - 1) data

/-- The scan `for i <= j && data.Less(i, a) { i++ }` of `partition`. The first
argument bounds the number of passes; running out of it is `none`. -/
def partitionUp (data : List File) (a j : Nat) : Nat → Nat → Option Nat
  | 0, _ => none
  | n + 1, i =>
    if i ≤ j then
      match ByFileName.Less data i a with
      | none => none
      | some true => partitionUp data a j n (i + 1)
      | some false => some i
    else some i

/-- The scan `for i <= j && !data.Less(j, a) { j-- }` of `partition`. -/
def partitionDown (data : List File) (a i : Nat) : Nat → Nat → Option Nat
  | 0, _ => none
  | n + 1, j =>
    if i ≤ j then
      match ByFileName.Less data j a with
      | none => none
      | some false => partitionDown data a i n (j - 1)
      | some true => some j
    else some j

/-- The `for` loop of `partition` after the first exchange: both scans, `break`
when `i > j`, else `data.Swap(i, j); i++; j--`. It returns `j` and the data. -/
def partitionLoop (a fuel : Nat) : Nat → Nat → Nat → List File → Option (Nat × List File)
  | 0, _, _, _ => none
  | n + 1, i, j, data =>
    match partitionUp data a j fuel i with
    | none => none
    | some i1 =>
      match partitionDown data a i1 fuel j with
      | none => none
      | some j1 =>
        if j1 < i1 then some (j1, data)
        else
          match ByFileName.Swap data i1 j1 with
          | none => none
          | some data1 => partitionLoop a fuel n (i1 + 1) (j1 - 1) data1

/-- Go's `partition(data, a, b, pivot)`: `(newpivot, alreadyPartitioned)` and
the data. No scan or loop makes more than `b - a` passes. -/
def partition (data : List File) (a b pivot : Nat) : Option (Nat × Bool × List File) :=
  match ByFileName.Swap data a pivot with
  | none => none
  | some data1 =>
    match partitionUp data1 a (b - 1) (b - a + 1) (a + 1) with
    | none => none
    | some i =>
      match partitionDown data1 a i (b - a + 1) (b - 1) with
      | none => none
      | some j =>
        if j < i then
          match ByFileName.Swap data1 j a with
          | none => none
          | some data2 => some (j, true, data2)
        else
          match ByFileName.Swap data1 i j with
          | none => none
          | some data2 =>
            match partitionLoop a (b - a + 1) (b - a + 1) (i + 1) (j - 1) data2 with
            | none => none
            | some (j1, data3) =>
              match ByFileName.Swap data3 j1 a with
              | none => none
              | some data4 => some (j1, false, data4)

/-- The scan `for i <= j && !data.Less(a, i) { i++ }` of `partitionEqual`. -/
def partitionEqualUp (data : List File) (a j : Nat) : Nat → Nat → Option Nat
  | 0, _ => none
  | n + 1, i =>
    if i ≤ j then
      match ByFileName.Less data a i with
      | none => none
      | some false => partitionEqualUp data a j n (i + 1)
      | some true => some i
    else some i

/-- The scan `for i <= j && data.Less(a, j) { j-- }` of `partitionEqual`. -/
def partitionEqualDown (data : List File) (a i : Nat) : Nat → Nat → Option Nat
  | 0, _ => none
  | n + 1, j =>
    if i ≤ j then
      match ByFileName.Less data a j with
      | none => none
      | some true => partitionEqualDown data a i n (j - 1)
      | some false => some j
    else some j

/-- The `for` loop of `partitionEqual`; it returns `i` and the data. -/
def partitionEqualLoop (a fuel : Nat) : Nat → Nat → Nat → List File → Option (Nat × List File)
  | 0, _, _, _ => none
  | n + 1, i, j, data =>
    match partitionEqualUp data a j fuel i with
    | none => none
    | some i1 =>
      match partitionEqualDown data a i1 fuel j with
      | none => none
      | some j1 =>
        if j1 < i1 then some (i1, data)
        else
          match ByFileName.Swap data i1 j1 with
          | none => none
          | some data1 => partitionEqualLoop a fuel n (i1 + 1) (j1 - 1) data1

/-- Go's `partitionEqual(data, a, b, pivot)`: `newpivot` and the data. -/
def partitionEqual (data : List File) (a b pivot : Nat) : Option (Nat × List File) :=
  match ByFileName.Swap data a pivot with
  | none => none
  | some data1 => partitionEqualLoop a (b - a + 1) (b - a + 1) (a + 1) (b - 1) data1

/-- The scan `for i < b && !data.Less(i, i-1) { i++ }` of `partialInsertionSort`. -/
def partialInsertionSortScan (data : List File) (b : Nat) : Nat → Nat → Option Nat
  | 0, _ => none
  | n + 1, i =>
    if i < b then
      match ByFileName.Less data i (i - 1) with
      | none => none
      | some false => partialInsertionSortScan data b n (i + 1)
      | some true => some i
    else some i

/-- The loop `for j := i + 1; j < b; j++` of `partialInsertionSort` that shifts
the greater entry to the right: `break` when `!data.Less(j, j-1)`, else
`data.Swap(j, j-1)`. -/
def shiftRight (b : Nat) : Nat → Nat → List File → Option (List File)
  | 0, _, _ => none
  | n + 1, j, data =>
    if j < b then
      match ByFileName.Less data j (j - 1) with
      | none => none
      | some false => some data
      | some true =>
        match ByFileName.Swap data j (j - 1) with
        | none => none
        | some data1 => shiftRight b n (j + 1) data1
    else some data

/-- The loop `for j := 0; j < maxSteps; j++` of `partialInsertionSort`, with the
passes left as counter. The loop that shifts the smaller entry to the left,
`for j := i - 1; j >= 1; j--` with `break` when `!data.Less(j, j-1)`, is the
inner loop of `insertionSort` with lower bound 0. -/
def partialInsertionSortLoop (a b : Nat) :
    Nat → Nat → List File → Option (Bool × List File)
  | 0, _, data => some (false, data)
  | s + 1, i, data =>
    match partialInsertionSortScan data b (b - a + 1) i with
    | none => none
    | some i1 =>
      if i1 = b then some (true, data)
      else if b - a < 50 then some (false, data)
      else
        match ByFileName.Swap data i1 (i1 - 1) with
        | none => none
        | some data1 =>
          match (if 2 ≤ i1 - a then insertionSortInner 0 (i1 - 1) data1 else some data1) with
          | none => none
          | some data2 =>
            match (if 2 ≤ b - i1 then shiftRight b (b - a + 1) (i1 + 1) data2
              else some data2) with
            | none => none
            | some data3 => partialInsertionSortLoop a b s i1 data3

/-- Go's `partialInsertionSort(data, a, b)`: `maxSteps = 5`,
`shortestShifting = 50`, `i := a + 1`. -/
def partialInsertionSort (data : List File) (a b : Nat) : Option (Bool × List File) :=
  partialInsertionSortLoop a b 5 (a + 1) data

/-- Go's `pdqsort(data, a, b, limit)`, the `for` loop and the recursive calls
alike, with the two flags `wasBalanced` and `wasPartitioned` of the loop (both
`true` at a call). The first argument bounds the number of passes and nested
calls; running out of it is `none`. Every pass shrinks `[a, b)`, so `b - a + 1`
is enough. -/
def pdqsort : Nat → List File → Nat → Nat → Nat → Bool → Bool → Option (List File)
  | 0, _, _, _, _, _, _ => none
  | n + 1, data, a, b, limit, wasBalanced, wasPartitioned =>
    if b - a ≤ 12 then insertionSort data a b
    else if limit = 0 then heapSort data a b
    else
      match (if wasBalanced then some (data, limit)
        else (breakPatterns data a b).map (fun d => (d, limit - 1))) with
      | none => none
      | some (data1, limit1) =>
        match choosePivot data1 a b with
        | none => none
        | some (pivot, hint) =>
          match (if hint = sortedHint.decreasingHint then
              (reverseRange data1 a b).map
                (fun d => (d, (b - 1) - (pivot - a), sortedHint.increasingHint))
            else some (data1, pivot, hint)) with
          | none => none
          | some (data2, pivot1, hint1) =>
            match (if wasBalanced && wasPartitioned && hint1 = sortedHint.increasingHint then
                partialInsertionSort data2 a b
              else some (false, data2)) with
            | none => none
            | some (true, data3) => some data3
            | some (false, data3) =>
              match (if 0 < a then (ByFileName.Less data3 (a - 1) pivot1).map (fun l => !l)
                else some false) with
              | none => none
              | some true =>
                match partitionEqual data3 a b pivot1 with
                | none => none
                | some (mid, data4) =>
                  pdqsort n data4 mid b limit1 wasBalanced wasPartitioned
              | some false =>
                match partition data3 a b pivot1 with
                | none => none
                | some (mid, alreadyPartitioned, data4) =>
                  if mid - a < b - mid then
                    match pdqsort n data4 a mid limit1 true true with
                    | none => none
                    | some data5 =>
                      pdqsort n data5 (mid + 1) b limit1
                        (decide ((b - a) / 8 ≤ mid - a)) alreadyPartitioned
                  else
                    match pdqsort n data4 (mid + 1) b limit1 true true with
                    | none => none
                    | some data5 =>
                      pdqsort n data5 a mid limit1
                        (decide ((b - a) / 8 ≤ b - mid)) alreadyPartitioned

/-- Go's `sort.Sort(ByFileName(fs))` (`Sort` alone is a reserved word here):
`n := data.Len()`, nothing to do when `n <= 1`, else
`pdqsort(data, 0, n, bits.Len(uint(n)))`, here with `n + 1` passes allowed. -/
def sortSort (data : List File) : Option (List File) :=
  if ByFileName.Len data ≤ 1 then some data
  else pdqsort (ByFileName.Len data + 1) data 0 (ByFileName.Len data)
    (bitsLen (ByFileName.Len data)) true true

/-! ## Operations -/

/-- FileName gets the name of the file: `words[len(words)-1]` of the split on
the backslash; `none` is the index panic. -/
def File.FileName (f : File) : Option GoString :=
  let words := strings.Split f.Name backslash
  words[words.length - 1]?

/-- MakeFile creates a file with zero (nil) or more exclusions. The variadic
parameter is the slice `exclusions`, nil (`none`) when the call passes no
variadic argument. -/
def MakeFile (name : GoString) (exclusions : Option (List GoString)) : File :=
  let path := ProjectDir ++ ascii "\\" ++ name
  let ex : Option Excluded :=
    match exclusions with
    | none => none
    | some names => some ⟨names⟩
  { Name := path, Exclusions := ex }

/-- InsertFile will insert a file into an EWP while maintaining file order:
`fs := append(ewp.Files, f); sort.Sort(ByFileName(fs)); ewp.Files = fs`. -/
def Ewp.InsertFile (ewp : Ewp) (f : File) : Option Ewp :=
  match sortSort (ewp.Files ++ [f]) with
  | none => none
  | some fs => some { ewp with Files := fs }

/-- The `for _, file := range ewp.Files` loop of `Contains`. -/
def containsLoop (f : File) : List File → Bool
  | [] => false
  | file :: rest => if file.Name = f.Name then true else containsLoop f rest

/-- Contains checks if the provided file is in the EWP. -/
def Ewp.Contains (ewp : Ewp) (f : File) : Bool :=
  containsLoop f ewp.Files

/-- A run of `InsertFile` calls, one per entry, left to right. -/
def insertAll : Ewp → List File → Option Ewp
  | ewp, [] => some ewp
  | ewp, f :: rest =>
    match ewp.InsertFile f with
    | none => none
    | some ewp1 => insertAll ewp1 rest

/-! ## Specification vocabulary -/

/-- Byte-wise `<=` on strings, spelled out: equal, or strictly less. -/
def strLe (s t : GoString) : Prop := s = t ∨ strLess s t = true

instance strLe_decidable (s t : GoString) : Decidable (strLe s t) :=
  inferInstanceAs (Decidable (s = t ∨ strLess s t = true))

/-- The files are in non-decreasing order of `Name`: every entry has a name
byte-wise `<=` the name of every later entry. -/
def SortedByName (fs : List File) : Prop :=
  fs.Pairwise (fun x y => strLe x.Name y.Name)

instance SortedByName_decidable (fs : List File) : Decidable (SortedByName fs) :=
  inferInstanceAs (Decidable (fs.Pairwise (fun (x y : File) => strLe x.Name y.Name)))

/-- The names of the files, in order. -/
def names (fs : List File) : List GoString := fs.map (fun x => x.Name)

/-- One pass of the inner loop seen on the part of the slice left of the moving
entry, held nearest-first: `x` travels left past every entry with a larger name. -/
def sinkInto (x : File) : List File → List File
  | [] => [x]
  | y :: rl => if strLess x.Name y.Name then y :: sinkInto x rl else x :: y :: rl

/-- The six entries of the repository tests (`TestSortByFileName`,
`TestInsertFile`, `TestContains`), in the order the tests list them. -/
def testFiles : List File :=
  [MakeFile (ascii "main.cpp") none, MakeFile (ascii "math.h") none,
   MakeFile (ascii "boost.cpp") none, MakeFile (ascii "boost.h") none,
   MakeFile (ascii "gmock\\gmock.h") none, MakeFile (ascii "gtest\\gtest.h") none]

/-- Twelve entries `a.c` to `l.c` in order, then a second `f.c` with an
exclusion: the smallest input on which `sort.Sort` leaves insertion sort. -/
def thirteenFiles : List File :=
  [⟨ascii "a.c", none⟩, ⟨ascii "b.c", none⟩, ⟨ascii "c.c", none⟩, ⟨ascii "d.c", none⟩,
   ⟨ascii "e.c", none⟩, ⟨ascii "f.c", none⟩, ⟨ascii "g.c", none⟩, ⟨ascii "h.c", none⟩,
   ⟨ascii "i.c", none⟩, ⟨ascii "j.c", none⟩, ⟨ascii "k.c", none⟩, ⟨ascii "l.c", none⟩,
   ⟨ascii "f.c", some ⟨[ascii "Debug"]⟩⟩]

/-- A document holding nothing but the given files. -/
def ewpOf (fs : List File) : Ewp :=
  { XMLName := ⟨[], []⟩, FileVersion := 0, Configuration := [], Group := [], Files := fs }

/-! ## Slices seen through indices: vocabulary of the sort proofs -/

/-- The entry at index `k`, with a fixed filler beyond the end. -/
def nth (D : List File) (k : Nat) : File := D[k]?.getD ⟨[], none⟩

/-- The slice with the entries at `i` and `j` exchanged. -/
def swapAt (D : List File) (i j : Nat) : List File := (D.set i (nth D j)).set j (nth D i)

/-- The part `D[a:b]` of a slice. -/
def seg (D : List File) (a b : Nat) : List File := (D.drop a).take (b - a)

/-- Name order on entries: `x` is not after `y`. -/
def FileLe (x y : File) : Prop := strLess y.Name x.Name = false

/-- The slice `E` is the slice `D` with the part `[a, b)` rearranged. -/
def Rearr (a b : Nat) (D E : List File) : Prop :=
  E.Perm D ∧ ∀ k, (k < a ∨ b ≤ k) → nth E k = nth D k

/-- In the heap laid out from index `first`, every node from `lo` on is not
before its children below `hi`. -/
def HeapAbove (first lo hi : Nat) (E : List File) : Prop :=
  ∀ r c, lo ≤ r → (c = 2 * r + 1 ∨ c = 2 * r + 2) → c < hi →
    FileLe (nth E (first + c)) (nth E (first + r))

/-- The entry just before `data[a:b]`, when there is one, is not after any
entry of `data[a:b]`. -/
def PredBound (D : List File) (a b : Nat) : Prop :=
  0 < a → ∀ y ∈ seg D a b, FileLe (nth D (a - 1)) y

/-- The part `[a, b)` is sorted, read off the indices. -/
def Srt (D : List File) (a b : Nat) : Prop :=
  ∀ p q, a ≤ p → p < q → q < b → FileLe (nth D p) (nth D q)

/-! ## Go strings: the order -/

theorem strLess_irrefl (s : GoString) : strLess s s = false := by
  induction s with
  | nil => rfl
  | cons a s ih => simp [strLess, ih]

theorem strLess_asymm : ∀ (s t : GoString), strLess s t = true → strLess t s = false
  | [], [], h => by simp [strLess] at h
  | [], _ :: _, _ => by simp [strLess]
  | _ :: _, [], h => by simp [strLess] at h
  | a :: s, b :: t, h => by
    simp only [strLess] at h ⊢
    rcases lt_trichotomy a b with hab | hab | hab
    · simp [hab, not_lt_of_lt hab]
    · subst hab
      simp only [lt_irrefl, if_false] at h ⊢
      simpa using strLess_asymm s t h
    · simp [hab, not_lt_of_lt hab] at h

theorem strLess_trans : ∀ (s t u : GoString),
    strLess s t = true → strLess t u = true → strLess s u = true
  | [], _, [], _, h2 => by cases ‹GoString› <;> simp [strLess] at h2
  | [], _, _ :: _, _, _ => by simp [strLess]
  | _ :: _, [], _, h1, _ => by simp [strLess] at h1
  | _ :: _, _ :: _, [], _, h2 => by simp [strLess] at h2
  | a :: s, b :: t, c :: u, h1, h2 => by
    simp only [strLess] at h1 h2 ⊢
    rcases lt_trichotomy a b with hab | hab | hab
    · rcases lt_trichotomy b c with hbc | hbc | hbc
      · simp [lt_trans hab hbc]
      · subst hbc; simp [hab]
      · simp [hbc, not_lt_of_lt hbc] at h2
    · subst hab
      rcases lt_trichotomy a c with hbc | hbc | hbc
      · simp [hbc]
      · subst hbc
        simp only [lt_irrefl, if_false] at h1 h2 ⊢
        exact strLess_trans s t u h1 h2
      · simp [hbc, not_lt_of_lt hbc] at h2
    · simp [hab, not_lt_of_lt hab] at h1

theorem strLess_connex : ∀ (s t : GoString),
    strLess s t = false → strLess t s = false → s = t
  | [], [], _, _ => rfl
  | [], _ :: _, h, _ => by simp [strLess] at h
  | _ :: _, [], _, h => by simp [strLess] at h
  | a :: s, b :: t, h1, h2 => by
    simp only [strLess] at h1 h2
    rcases lt_trichotomy a b with hab | hab | hab
    · simp [hab] at h1
    · subst hab
      simp only [lt_irrefl, if_false] at h1 h2
      rw [strLess_connex s t h1 h2]
    · simp [hab] at h2

/-- Not-greater is the same as equal-or-less. -/
theorem strLess_false_iff (s t : GoString) : strLess t s = false ↔ strLe s t := by
  constructor
  · intro h
    cases h2 : strLess s t
    · exact Or.inl (strLess_connex s t h2 h)
    · exact Or.inr h2
  · rintro (h | h)
    · subst h; exact strLess_irrefl s
    · exact strLess_asymm s t h

/-- Not-greater is transitive. -/
theorem strLess_false_trans (s t u : GoString)
    (h1 : strLess t s = false) (h2 : strLess u t = false) : strLess u s = false := by
  cases h : strLess u s
  · rfl
  · exfalso
    rcases (strLess_false_iff t u).1 h2 with e | l
    · subst e; simp [h] at h1
    · have := strLess_trans t u s l h
      simp [this] at h1

/-- Go string comparison is the lexicographic order of the byte sequences. -/
theorem strLess_iff_lex : ∀ (s t : GoString), strLess s t = true ↔ List.Lex (· < ·) s t
  | [], [] => by simp [strLess]
  | [], _ :: _ => by simp [strLess, List.Lex.nil]
  | _ :: _, [] => by simp [strLess]
  | a :: s, b :: t => by
    simp only [strLess]
    rcases lt_trichotomy a b with hab | hab | hab
    · simp only [hab, if_true, true_iff]; exact List.Lex.rel hab
    · subst hab
      simp only [lt_irrefl, if_false]
      rw [strLess_iff_lex s t]
      constructor
      · exact fun h => List.Lex.cons h
      · intro h
        cases h with
        | cons h => exact h
        | rel h => exact absurd h (lt_irrefl _)
    · simp only [not_lt_of_lt hab, hab, if_false, if_true]
      constructor
      · intro h; cases h
      · intro h
        cases h with
        | cons h => exact absurd hab (lt_irrefl _)
        | rel h => exact absurd h (not_lt_of_lt hab)

/-! ## Package sort: the insertion sort sorts -/

theorem getElem?_append_here {α : Type} (l : List α) (a : α) (r : List α) :
    (l ++ a :: r)[l.length]? = some a := by
  induction l with
  | nil => simp
  | cons b l ih => simpa using ih

theorem getElem?_append_next {α : Type} (l : List α) (a b : α) (r : List α) :
    (l ++ a :: b :: r)[l.length + 1]? = some b := by
  induction l with
  | nil => simp
  | cons c l ih => simpa using ih

theorem set_append_here {α : Type} (l : List α) (a c : α) (r : List α) :
    (l ++ a :: r).set l.length c = l ++ c :: r := by
  induction l with
  | nil => rfl
  | cons b l ih => simp

theorem set_append_next {α : Type} (l : List α) (a b c : α) (r : List α) :
    (l ++ a :: b :: r).set (l.length + 1) c = l ++ a :: c :: r := by
  induction l with
  | nil => rfl
  | cons d l ih => simp

/-- Less at two adjacent positions of a slice cut there. -/
theorem Less_adjacent (l : List File) (y x : File) (r : List File) :
    ByFileName.Less (l ++ y :: x :: r) (l.length + 1) l.length
      = some (strLess x.Name y.Name) := by
  simp only [ByFileName.Less, getElem?_append_next, getElem?_append_here]

/-- Swap at two adjacent positions of a slice cut there. -/
theorem Swap_adjacent (l : List File) (y x : File) (r : List File) :
    ByFileName.Swap (l ++ y :: x :: r) (l.length + 1) l.length
      = some (l ++ x :: y :: r) := by
  simp only [ByFileName.Swap, getElem?_append_next, getElem?_append_here]
  rw [set_append_next, set_append_here]

theorem length_sinkInto (x : File) : ∀ rl : List File, (sinkInto x rl).length = rl.length + 1
  | [] => rfl
  | y :: rl => by
    simp only [sinkInto]
    split
    · simp [length_sinkInto x rl]
    · simp

theorem perm_sinkInto (x : File) : ∀ rl : List File, (sinkInto x rl).Perm (x :: rl)
  | [] => List.Perm.refl _
  | y :: rl => by
    simp only [sinkInto]
    split
    · exact ((perm_sinkInto x rl).cons y).trans (List.Perm.swap x y rl)
    · exact List.Perm.refl _

/-- Held nearest-first, a sorted prefix stays sorted when an entry sinks into it. -/
theorem pairwise_sinkInto (x : File) : ∀ rl : List File,
    rl.Pairwise (fun u v => strLess u.Name v.Name = false) →
    (sinkInto x rl).Pairwise (fun u v => strLess u.Name v.Name = false)
  | [], _ => by simp [sinkInto]
  | y :: rl, h => by
    have hy := List.pairwise_cons.1 h
    simp only [sinkInto]
    split
    · rename_i hxy
      refine List.pairwise_cons.2 ⟨?_, pairwise_sinkInto x rl hy.2⟩
      intro z hz
      rcases List.mem_cons.1 ((perm_sinkInto x rl).subset hz) with e | hz
      · subst e; exact strLess_asymm _ _ hxy
      · exact hy.1 z hz
    · rename_i hxy
      have hxy : strLess x.Name y.Name = false := by simpa using hxy
      refine List.pairwise_cons.2 ⟨?_, h⟩
      intro z hz
      rcases List.mem_cons.1 hz with e | hz
      · subst e; exact hxy
      · exact strLess_false_trans _ _ _ (hy.1 z hz) hxy

/-- The inner loop started at the cut moves the entry at the cut to its place. -/
theorem insertionSortInner_eq (x : File) (r : List File) : ∀ rl : List File,
    insertionSortInner 0 rl.length (rl.reverse ++ x :: r)
      = some ((sinkInto x rl).reverse ++ r)
  | [] => rfl
  | y :: rl => by
    have e : (y :: rl).reverse ++ x :: r = rl.reverse ++ y :: x :: r := by simp
    have hl : rl.length = rl.reverse.length := by simp
    rw [e, List.length_cons]
    simp only [insertionSortInner, Nat.zero_lt_succ, if_true]
    have hLess := Less_adjacent rl.reverse y x r
    have hSwap := Swap_adjacent rl.reverse y x r
    rw [← hl] at hLess hSwap
    rw [hLess]
    cases hxy : strLess x.Name y.Name
    · simp [sinkInto, hxy]
    · simp only [hSwap]
      have ih := insertionSortInner_eq x (y :: r) rl
      rw [ih]
      simp [sinkInto, hxy]

/-- The outer loop sinks the entries right of the cut one after the other. -/
theorem insertionSortOuter_eq : ∀ (r rl : List File),
    insertionSortOuter 0 r.length rl.length (rl.reverse ++ r)
      = some ((r.foldl (fun acc x => sinkInto x acc) rl).reverse)
  | [], rl => by simp [insertionSortOuter]
  | x :: r, rl => by
    simp only [List.length_cons, insertionSortOuter, insertionSortInner_eq, List.foldl_cons]
    have ih := insertionSortOuter_eq r (sinkInto x rl)
    rw [length_sinkInto] at ih
    exact ih

theorem perm_foldl_sinkInto : ∀ (r rl : List File),
    (r.foldl (fun acc x => sinkInto x acc) rl).Perm (rl ++ r)
  | [], rl => by simp
  | x :: r, rl => by
    simp only [List.foldl_cons]
    refine (perm_foldl_sinkInto r (sinkInto x rl)).trans ?_
    refine ((perm_sinkInto x rl).append_right r).trans ?_
    simpa using (@List.perm_middle _ x rl r).symm

theorem pairwise_foldl_sinkInto : ∀ (r rl : List File),
    rl.Pairwise (fun u v => strLess u.Name v.Name = false) →
    (r.foldl (fun acc x => sinkInto x acc) rl).Pairwise
      (fun u v => strLess u.Name v.Name = false)
  | [], _, h => h
  | x :: r, rl, h => pairwise_foldl_sinkInto r (sinkInto x rl) (pairwise_sinkInto x rl h)

/-! ## Slices seen through indices -/

theorem getElem?_eq_nth (D : List File) (k : Nat) (h : k < D.length) : D[k]? = some (nth D k) := by
  simp [nth, List.getElem?_eq_getElem h]

theorem nth_eq_of_getElem? (D : List File) (k : Nat) (x : File) (h : D[k]? = some x) :
    nth D k = x := by
  simp [nth, h]

theorem Less_nth (D : List File) (i j : Nat) (hi : i < D.length) (hj : j < D.length) :
    ByFileName.Less D i j = some (strLess (nth D i).Name (nth D j).Name) := by
  simp only [ByFileName.Less, getElem?_eq_nth D i hi, getElem?_eq_nth D j hj]

theorem Swap_nth (D : List File) (i j : Nat) (hi : i < D.length) (hj : j < D.length) :
    ByFileName.Swap D i j = some (swapAt D i j) := by
  simp only [ByFileName.Swap, getElem?_eq_nth D i hi, getElem?_eq_nth D j hj, swapAt]

theorem length_swapAt (D : List File) (i j : Nat) : (swapAt D i j).length = D.length := by
  simp [swapAt]

theorem nth_swapAt (D : List File) (i j k : Nat) (hi : i < D.length) (hj : j < D.length) :
    nth (swapAt D i j) k = if k = j then nth D i else if k = i then nth D j else nth D k := by
  unfold swapAt
  by_cases h1 : k = j
  · subst h1
    simp [nth, List.getElem?_set, hj]
  · by_cases h2 : k = i
    · subst h2
      have h1' : ¬ j = k := fun e => h1 e.symm
      simp [nth, List.getElem?_set, hi, h1, h1']
    · have h1' : ¬ j = k := fun e => h1 e.symm
      have h2' : ¬ i = k := fun e => h2 e.symm
      simp [nth, List.getElem?_set, h1, h2, h1', h2']

theorem set_perm_cons (h x : File) : ∀ (t : List File) (d : Nat), t[d]? = some x →
    (x :: t.set d h).Perm (h :: t)
  | [], _, e => by simp at e
  | y :: t, 0, e => by
    simp only [List.getElem?_cons_zero, Option.some.injEq] at e
    subst e
    exact List.Perm.swap _ _ _
  | y :: t, d + 1, e => by
    simp only [List.getElem?_cons_succ] at e
    simp only [List.set_cons_succ]
    exact (List.Perm.swap y x _).trans (((set_perm_cons h x t d e).cons y).trans
      (List.Perm.swap h y t))

theorem perm_swapAt_lt : ∀ (D : List File) (i d : Nat), i + d + 1 < D.length →
    (swapAt D i (i + d + 1)).Perm D
  | [], _, _, h => by simp at h
  | x :: t, 0, d, h => by
    have hd : d < t.length := by simpa using h
    have e1 : nth (x :: t) (0 + d + 1) = nth t d := by simp [nth]
    have e2 : nth (x :: t) 0 = x := by simp [nth]
    unfold swapAt
    rw [e1, e2]
    simp only [List.set_cons_zero, Nat.zero_add, List.set_cons_succ]
    exact set_perm_cons x (nth t d) t d (getElem?_eq_nth t d hd)
  | x :: t, i + 1, d, h => by
    have hd : i + d + 1 < t.length := by simp at h; omega
    have e1 : nth (x :: t) (i + 1 + d + 1) = nth t (i + d + 1) := by
      have : i + 1 + d + 1 = (i + d + 1) + 1 := by omega
      rw [this]; simp [nth]
    have e2 : nth (x :: t) (i + 1) = nth t i := by simp [nth]
    have e3 : i + 1 + d + 1 = (i + d + 1) + 1 := by omega
    unfold swapAt
    rw [e1, e2, e3]
    simp only [List.set_cons_succ]
    exact (perm_swapAt_lt t i d hd).cons x

theorem swapAt_comm (D : List File) (i j : Nat) : swapAt D i j = swapAt D j i := by
  unfold swapAt
  by_cases h : i = j
  · subst h; rfl
  · rw [List.set_comm _ _ _ h]

theorem swapAt_self (D : List File) (i : Nat) : swapAt D i i = D := by
  apply List.ext_getElem?
  intro k
  unfold swapAt
  by_cases h : i = k
  · subst h
    by_cases hl : i < D.length
    · simp [List.getElem?_set, hl, getElem?_eq_nth D i hl]
    · have : D.length ≤ i := Nat.le_of_not_lt hl
      simp [List.getElem?_set, hl, List.getElem?_eq_none this]
  · simp [List.getElem?_set, h]

theorem perm_swapAt (D : List File) (i j : Nat) (hi : i < D.length) (hj : j < D.length) :
    (swapAt D i j).Perm D := by
  rcases Nat.lt_trichotomy i j with h | h | h
  · obtain ⟨d, rfl⟩ : ∃ d, j = i + d + 1 := ⟨j - i - 1, by omega⟩
    exact perm_swapAt_lt D i d hj
  · subst h; rw [swapAt_self]
  · obtain ⟨d, rfl⟩ : ∃ d, i = j + d + 1 := ⟨i - j - 1, by omega⟩
    rw [swapAt_comm]
    exact perm_swapAt_lt D j d hi

/-! ### Rearrangements of a part -/

theorem Rearr.same (a b : Nat) (D : List File) : Rearr a b D D :=
  ⟨List.Perm.refl _, fun _ _ => rfl⟩

theorem Rearr.andThen {a b : Nat} {D E F : List File} (h1 : Rearr a b D E) (h2 : Rearr a b E F) :
    Rearr a b D F :=
  ⟨h2.1.trans h1.1, fun k hk => (h2.2 k hk).trans (h1.2 k hk)⟩

theorem Rearr.widen {a b c d : Nat} {D E : List File} (h : Rearr a b D E)
    (hc : c ≤ a) (hd : b ≤ d) : Rearr c d D E :=
  ⟨h.1, fun k hk => h.2 k (by omega)⟩

theorem Rearr.length_eq {a b : Nat} {D E : List File} (h : Rearr a b D E) :
    E.length = D.length := h.1.length_eq

theorem Rearr.of_swapAt (a b : Nat) (D : List File) (i j : Nat) (hia : a ≤ i) (hib : i < b)
    (hja : a ≤ j) (hjb : j < b) (hb : b ≤ D.length) : Rearr a b D (swapAt D i j) := by
  have hi : i < D.length := by omega
  have hj : j < D.length := by omega
  refine ⟨perm_swapAt D i j hi hj, fun k hk => ?_⟩
  rw [nth_swapAt D i j k hi hj]
  have h1 : ¬ k = j := by omega
  have h2 : ¬ k = i := by omega
  simp [h1, h2]

theorem getElem?_seg (D : List File) (a b k : Nat) :
    (seg D a b)[k]? = if k < b - a then D[a + k]? else none := by
  unfold seg
  rw [List.getElem?_take]
  split
  · rw [List.getElem?_drop]
  · rfl

theorem length_seg (D : List File) (a b : Nat) (hb : b ≤ D.length) :
    (seg D a b).length = b - a := by
  simp [seg]; omega

theorem mem_seg (D : List File) (a b : Nat) (hb : b ≤ D.length) (x : File) :
    x ∈ seg D a b ↔ ∃ k, a ≤ k ∧ k < b ∧ nth D k = x := by
  rw [List.mem_iff_getElem?]
  constructor
  · rintro ⟨n, hn⟩
    rw [getElem?_seg] at hn
    split at hn
    · exact ⟨a + n, by omega, by omega, nth_eq_of_getElem? _ _ _ hn⟩
    · exact absurd hn (by simp)
  · rintro ⟨k, h1, h2, h3⟩
    refine ⟨k - a, ?_⟩
    rw [getElem?_seg, if_pos (by omega)]
    have : a + (k - a) = k := by omega
    rw [this, getElem?_eq_nth D k (by omega), h3]

theorem seg_eq_of_nth (D E : List File) (a b : Nat) (hl : E.length = D.length)
    (h : ∀ k, a ≤ k → k < b → nth E k = nth D k) : seg E a b = seg D a b := by
  apply List.ext_getElem?
  intro k
  rw [getElem?_seg, getElem?_seg]
  split
  · by_cases hk : a + k < D.length
    · rw [getElem?_eq_nth D _ hk, getElem?_eq_nth E _ (by omega), h (a + k) (by omega) (by omega)]
    · rw [List.getElem?_eq_none (by omega), List.getElem?_eq_none (by omega)]
  · rfl

theorem seg_append (D : List File) (a m b : Nat) (h1 : a ≤ m) (h2 : m ≤ b) :
    seg D a b = seg D a m ++ seg D m b := by
  apply List.ext_getElem?
  intro k
  by_cases hm : m ≤ D.length
  · rw [List.getElem?_append, length_seg D a m hm]
    simp only [getElem?_seg]
    by_cases hk : k < m - a
    · simp only [hk, if_true]
      rw [if_pos (by omega)]
    · simp only [hk, if_false]
      by_cases hk2 : k < b - a
      · rw [if_pos hk2, if_pos (by omega)]
        congr 1; omega
      · rw [if_neg hk2, if_neg (by omega)]
  · have e1 : seg D m b = [] := by
      unfold seg
      rw [List.drop_eq_nil_of_le (by omega)]; simp
    rw [e1, List.append_nil]
    simp only [getElem?_seg]
    by_cases hk : k < m - a
    · rw [if_pos hk, if_pos (by omega)]
    · rw [if_neg hk]
      split
      · exact List.getElem?_eq_none (by omega)
      · rfl

theorem seg_single (D : List File) (m : Nat) (h : m < D.length) : seg D m (m + 1) = [nth D m] := by
  apply List.ext_getElem?
  intro k
  rw [getElem?_seg]
  cases k with
  | zero => simp [getElem?_eq_nth D m h]
  | succ k => simp

theorem seg_zero_length (D : List File) : seg D 0 D.length = D := by
  simp [seg]

theorem seg_empty (D : List File) (a b : Nat) (h : b ≤ a) : seg D a b = [] := by
  unfold seg
  have : b - a = 0 := by omega
  rw [this]; simp

theorem take_eq_seg (D : List File) (a : Nat) : D.take a = seg D 0 a := by
  simp [seg]

theorem drop_eq_seg (D : List File) (b : Nat) : D.drop b = seg D b D.length := by
  unfold seg
  rw [List.take_of_length_le (by simp)]

/-- A rearrangement of `[a, b)` permutes that part. -/
theorem Rearr.seg_perm {a b : Nat} {D E : List File} (h : Rearr a b D E) (hab : a ≤ b)
    (hb : b ≤ D.length) : (seg E a b).Perm (seg D a b) := by
  have hl := h.length_eq
  have e1 : seg E 0 a = seg D 0 a := seg_eq_of_nth D E 0 a hl (fun k _ hk => h.2 k (Or.inl hk))
  have e2 : seg E b D.length = seg D b D.length :=
    seg_eq_of_nth D E b D.length hl (fun k hk _ => h.2 k (Or.inr hk))
  have dD : D = seg D 0 a ++ (seg D a b ++ seg D b D.length) := by
    rw [← seg_append D a b D.length hab hb, ← seg_append D 0 a D.length (Nat.zero_le _) (by omega),
      seg_zero_length]
  have dE : E = seg E 0 a ++ (seg E a b ++ seg E b D.length) := by
    rw [← seg_append E a b D.length hab hb, ← seg_append E 0 a D.length (Nat.zero_le _) (by omega),
      ← hl, seg_zero_length]
  have hp := h.1
  rw [dD, dE, e1, e2] at hp
  exact (List.perm_append_right_iff _).1 ((List.perm_append_left_iff _).1 hp)

/-- Sortedness of a part, read off the indices. -/
theorem pairwise_seg (D : List File) (a b : Nat) (hb : b ≤ D.length)
    (h : ∀ i j, a ≤ i → i < j → j < b → FileLe (nth D i) (nth D j)) :
    (seg D a b).Pairwise FileLe := by
  rw [List.pairwise_iff_getElem]
  intro i j hi hj hij
  rw [length_seg D a b hb] at hi hj
  have e1 : (seg D a b)[i]? = some (nth D (a + i)) := by
    rw [getElem?_seg, if_pos hi, getElem?_eq_nth D _ (by omega)]
  have e2 : (seg D a b)[j]? = some (nth D (a + j)) := by
    rw [getElem?_seg, if_pos hj, getElem?_eq_nth D _ (by omega)]
  obtain ⟨_, e1⟩ := List.getElem?_eq_some.1 e1
  obtain ⟨_, e2⟩ := List.getElem?_eq_some.1 e2
  rw [e1, e2]
  exact h (a + i) (a + j) (by omega) (by omega) (by omega)

theorem FileLe.self (x : File) : FileLe x x := strLess_irrefl _

theorem FileLe.chain {x y z : File} (h1 : FileLe x y) (h2 : FileLe y z) : FileLe x z :=
  strLess_false_trans _ _ _ h1 h2

theorem FileLe.total (x y : File) : FileLe x y ∨ FileLe y x := by
  unfold FileLe
  cases h : strLess y.Name x.Name
  · exact Or.inl rfl
  · exact Or.inr (strLess_asymm _ _ h)

theorem FileLe.of_less {x y : File} (h : strLess x.Name y.Name = true) : FileLe x y :=
  strLess_asymm _ _ h

/-! ## Package sort: insertion sort on a part -/

theorem nth_append_left (L X : List File) (k : Nat) (h : k < L.length) :
    nth (L ++ X) k = nth L k := by
  simp [nth, List.getElem?_append_left h]

theorem nth_append_right (L X : List File) (k : Nat) (h : L.length ≤ k) :
    nth (L ++ X) k = nth X (k - L.length) := by
  simp [nth, List.getElem?_append_right h]

/-- A slice cut in three is rearranged on the middle part when the middle part
is permuted. -/
theorem Rearr.of_middle (L M N R : List File) (hp : N.Perm M) :
    Rearr L.length (L.length + M.length) (L ++ (M ++ R)) (L ++ (N ++ R)) := by
  refine ⟨(hp.append_right R).append_left L, fun k hk => ?_⟩
  rcases hk with hk | hk
  · rw [nth_append_left _ _ _ hk, nth_append_left _ _ _ hk]
  · have h1 : L.length ≤ k := by omega
    rw [nth_append_right _ _ _ h1, nth_append_right _ _ _ h1]
    have h2 : M.length ≤ k - L.length := by omega
    have h3 : N.length ≤ k - L.length := by rw [hp.length_eq]; exact h2
    rw [nth_append_right _ _ _ h2, nth_append_right _ _ _ h3, hp.length_eq]

theorem seg_middle (L M R : List File) :
    seg (L ++ (M ++ R)) L.length (L.length + M.length) = M := by
  unfold seg
  simp

/-- Every slice is its part before `a`, its part `[a, b)` and its part from `b`. -/
theorem cut_three (D : List File) (a b : Nat) (hab : a ≤ b) (hb : b ≤ D.length) :
    D = D.take a ++ (seg D a b ++ D.drop b) ∧ (D.take a).length = a ∧
      (seg D a b).length = b - a := by
  refine ⟨?_, by simp; omega, length_seg D a b hb⟩
  rw [take_eq_seg, drop_eq_seg, ← seg_append D a b D.length hab hb,
    ← seg_append D 0 a D.length (Nat.zero_le _) (by omega), seg_zero_length]

theorem insertionSortInner_stop (a : Nat) (data : List File) :
    insertionSortInner a a data = some data := by
  cases a with
  | zero => rfl
  | succ a => simp [insertionSortInner]

/-- The inner loop started at the cut moves the entry at the cut to its place
among the entries between the lower bound and the cut. -/
theorem insertionSortInner_at (L : List File) (x : File) (r : List File) :
    ∀ rl : List File,
    insertionSortInner L.length (L.length + rl.length) (L ++ (rl.reverse ++ x :: r))
      = some (L ++ ((sinkInto x rl).reverse ++ r))
  | [] => by
    simpa [sinkInto] using insertionSortInner_stop L.length (L ++ x :: r)
  | y :: rl => by
    have e : L ++ ((y :: rl).reverse ++ x :: r) = (L ++ rl.reverse) ++ y :: x :: r := by simp
    have hl : (L ++ rl.reverse).length = L.length + rl.length := by simp
    have e2 : L.length + (y :: rl).length = (L.length + rl.length) + 1 := by simp; omega
    rw [e, e2]
    have hlt : L.length < L.length + rl.length + 1 := by omega
    simp only [insertionSortInner, hlt, if_true]
    have hLess := Less_adjacent (L ++ rl.reverse) y x r
    have hSwap := Swap_adjacent (L ++ rl.reverse) y x r
    rw [hl] at hLess hSwap
    rw [hLess]
    cases hxy : strLess x.Name y.Name
    · simp [sinkInto, hxy]
    · simp only [hSwap]
      have ih := insertionSortInner_at L x (y :: r) rl
      have e3 : (L ++ rl.reverse) ++ x :: y :: r = L ++ (rl.reverse ++ x :: y :: r) := by simp
      rw [e3, ih]
      simp [sinkInto, hxy]

/-- The outer loop sinks the entries right of the cut one after the other and
stops at the upper bound. -/
theorem insertionSortOuter_at (L R : List File) : ∀ (r rl : List File),
    insertionSortOuter L.length r.length (L.length + rl.length) (L ++ (rl.reverse ++ (r ++ R)))
      = some (L ++ ((r.foldl (fun acc x => sinkInto x acc) rl).reverse ++ R))
  | [], rl => by simp [insertionSortOuter]
  | x :: r, rl => by
    have e : L ++ (rl.reverse ++ (x :: r ++ R)) = L ++ (rl.reverse ++ x :: (r ++ R)) := by simp
    rw [e]
    simp only [List.length_cons, insertionSortOuter, insertionSortInner_at, List.foldl_cons]
    have ih := insertionSortOuter_at L R r (sinkInto x rl)
    rw [length_sinkInto] at ih
    exact ih

/-- Go's `insertionSort(data, a, b)` returns, rearranges `data[a:b]` only, and
leaves it sorted. -/
theorem insertionSort_spec (D : List File) (a b : Nat) (hab : a ≤ b) (hb : b ≤ D.length) :
    ∃ E, insertionSort D a b = some E ∧ Rearr a b D E ∧ (seg E a b).Pairwise FileLe := by
  obtain ⟨hD, hL, hM⟩ := cut_three D a b hab hb
  generalize hLdef : D.take a = L at hD hL
  generalize hMdef : seg D a b = M at hD hM
  generalize D.drop b = R at hD
  subst hD
  have hb2 : b = L.length + M.length := by omega
  subst hL
  cases M with
  | nil =>
    have : b - (L.length + 1) = 0 := by simp at hM; omega
    refine ⟨L ++ ([] ++ R), by simp [insertionSort, this, insertionSortOuter], Rearr.same _ _ _, ?_⟩
    rw [hb2, seg_middle]
    exact List.Pairwise.nil
  | cons x r =>
    have hn : b - (L.length + 1) = r.length := by simp at hb2; omega
    have h := insertionSortOuter_at L R r [x]
    simp only [List.length_singleton, List.reverse_singleton, List.singleton_append] at h
    have hs : (r.foldl (fun acc x => sinkInto x acc) [x]).reverse.Perm (x :: r) :=
      (List.reverse_perm _).trans (by simpa using perm_foldl_sinkInto r [x])
    refine ⟨_, by simp only [insertionSort, hn]; exact h, ?_, ?_⟩
    · rw [hb2]
      exact Rearr.of_middle L (x :: r) _ R hs
    · rw [hb2, ← hs.length_eq, seg_middle, List.pairwise_reverse]
      exact pairwise_foldl_sinkInto r [x] (List.pairwise_singleton _ _)

/-! ## Package sort: the helpers of pdqsort -/

theorem reverseRangeLoop_spec (a b : Nat) : ∀ (n i j : Nat) (D : List File),
    j - i < n → a ≤ i → (i < j → j < b) → b ≤ D.length →
    ∃ E, reverseRangeLoop n i j D = some E ∧ Rearr a b D E
  | 0, _, _, _, h, _, _, _ => absurd h (Nat.not_lt_zero _)
  | n + 1, i, j, D, h, hi, hj, hb => by
    by_cases hij : i < j
    · have hjb := hj hij
      simp only [reverseRangeLoop, hij, if_true, Swap_nth D i j (by omega) (by omega)]
      obtain ⟨E, h1, h2⟩ := reverseRangeLoop_spec a b n (i + 1) (j - 1) (swapAt D i j)
        (by omega) (by omega) (fun _ => by omega) (by rw [length_swapAt]; exact hb)
      exact ⟨E, h1, (Rearr.of_swapAt a b D i j hi (by omega) (by omega) hjb hb).andThen h2⟩
    · exact ⟨D, by simp [reverseRangeLoop, hij], Rearr.same _ _ _⟩

/-- Go's `reverseRange(data, a, b)` returns and rearranges `data[a:b]` only. -/
theorem reverseRange_spec (D : List File) (a b : Nat) (hb : b ≤ D.length) :
    ∃ E, reverseRange D a b = some E ∧ Rearr a b D E :=
  reverseRangeLoop_spec a b (b - a + 1) a (b - 1) D (by omega) (Nat.le_refl _)
    (fun _ => by omega) hb

theorem nextPowerOfTwo_le (l : Nat) (h : 0 < l) : nextPowerOfTwo l ≤ 2 * l := by
  have h0 : l ≠ 0 := by omega
  simp only [nextPowerOfTwo, bitsLen, h0, if_false, Nat.shiftLeft_eq, Nat.one_mul, Nat.pow_succ]
  have := Nat.log2_self_le h0
  omega

theorem breakPatterns_other_lt (x l : Nat) (h : 0 < l) :
    (if l ≤ x &&& (nextPowerOfTwo l - 1) then (x &&& (nextPowerOfTwo l - 1)) - l
      else x &&& (nextPowerOfTwo l - 1)) < l := by
  have h1 : x &&& (nextPowerOfTwo l - 1) ≤ nextPowerOfTwo l - 1 := Nat.and_le_right
  have h2 := nextPowerOfTwo_le l h
  split <;> omega

theorem breakPatternsLoop_spec (a b : Nat) (hl : 8 ≤ b - a) : ∀ (n i random : Nat)
    (D : List File), n + i ≤ 3 → b ≤ D.length →
    ∃ E, breakPatternsLoop a (b - a) (nextPowerOfTwo (b - a)) (a + (b - a) / 4 * 2 - 1)
      n i random D = some E ∧ Rearr a b D E
  | 0, _, _, D, _, _ => ⟨D, rfl, Rearr.same _ _ _⟩
  | n + 1, i, random, D, h, hb => by
    have hother := breakPatterns_other_lt (xorshiftNext random) (b - a) (by omega)
    have hq2 : (b - a) / 4 * 4 ≤ b - a := Nat.div_mul_le_self _ _
    have h1 : a ≤ a + (b - a) / 4 * 2 - 1 - 1 + i := by omega
    have h2 : a + (b - a) / 4 * 2 - 1 - 1 + i < b := by omega
    simp only [breakPatternsLoop]
    rw [Swap_nth D _ _ (by omega) (by omega)]
    simp only []
    obtain ⟨E, e1, e2⟩ := breakPatternsLoop_spec a b hl n (i + 1) (xorshiftNext random)
      (swapAt D (a + (b - a) / 4 * 2 - 1 - 1 + i)
        (a + (if b - a ≤ xorshiftNext random &&& (nextPowerOfTwo (b - a) - 1)
          then (xorshiftNext random &&& (nextPowerOfTwo (b - a) - 1)) - (b - a)
          else xorshiftNext random &&& (nextPowerOfTwo (b - a) - 1))))
      (by omega) (by rw [length_swapAt]; exact hb)
    exact ⟨E, e1, (Rearr.of_swapAt a b D _ _ h1 h2 (by omega) (by omega) hb).andThen e2⟩

/-- Go's `breakPatterns(data, a, b)` returns and rearranges `data[a:b]` only. -/
theorem breakPatterns_spec (D : List File) (a b : Nat) (hb : b ≤ D.length) :
    ∃ E, breakPatterns D a b = some E ∧ Rearr a b D E := by
  unfold breakPatterns
  split
  · rename_i hl
    exact breakPatternsLoop_spec a b hl 3 0 (b - a) D (by omega) hb
  · exact ⟨D, rfl, Rearr.same _ _ _⟩

theorem order2_spec (D : List File) (a b swaps : Nat) (P : Nat → Prop) (hPa : P a) (hPb : P b)
    (ha : a < D.length) (hb : b < D.length) :
    ∃ x y s, order2 D a b swaps = some (x, y, s) ∧ P x ∧ P y ∧ x < D.length ∧ y < D.length := by
  unfold order2
  rw [Less_nth D b a hb ha]
  cases strLess (nth D b).Name (nth D a).Name
  · exact ⟨a, b, swaps, rfl, hPa, hPb, ha, hb⟩
  · exact ⟨b, a, swaps + 1, rfl, hPb, hPa, hb, ha⟩

theorem median_spec (D : List File) (a b c swaps : Nat) (P : Nat → Prop) (hPa : P a) (hPb : P b)
    (hPc : P c) (ha : a < D.length) (hb : b < D.length) (hc : c < D.length) :
    ∃ m s, median D a b c swaps = some (m, s) ∧ P m ∧ m < D.length := by
  unfold median
  obtain ⟨a1, b1, s1, e1, pa1, pb1, la1, lb1⟩ := order2_spec D a b swaps P hPa hPb ha hb
  obtain ⟨b2, c2, s2, e2, pb2, _, lb2, _⟩ := order2_spec D b1 c s1 P pb1 hPc lb1 hc
  obtain ⟨a3, b3, s3, e3, _, pb3, _, lb3⟩ := order2_spec D a1 b2 s2 P pa1 pb2 la1 lb2
  rw [e1]; simp only []
  rw [e2]; simp only []
  rw [e3]; simp only []
  exact ⟨b3, s3, rfl, pb3, lb3⟩

theorem choosePivotIndex_spec (D : List File) (a b : Nat) (hab : a < b) (hb : b ≤ D.length) :
    ∃ p s, choosePivotIndex D a b = some (p, s) ∧ a ≤ p ∧ p < b := by
  have hq : (b - a) / 4 * 4 ≤ b - a := Nat.div_mul_le_self _ _
  generalize hqd : (b - a) / 4 = q at hq
  unfold choosePivotIndex
  rw [hqd]
  split
  · rename_i h8
    have hq1 : 2 ≤ q := by omega
    split
    · rename_i h50
      have hq2 : 12 ≤ q := by omega
      unfold medianAdjacent
      obtain ⟨i, s1, e1, hi, li⟩ := median_spec D (a + q * 1 - 1) (a + q * 1) (a + q * 1 + 1) 0
        (fun p => a ≤ p ∧ p < b) (by omega) (by omega) (by omega) (by omega) (by omega) (by omega)
      obtain ⟨j, s2, e2, hj, lj⟩ := median_spec D (a + q * 2 - 1) (a + q * 2) (a + q * 2 + 1) s1
        (fun p => a ≤ p ∧ p < b) (by omega) (by omega) (by omega) (by omega) (by omega) (by omega)
      obtain ⟨k, s3, e3, hk, lk⟩ := median_spec D (a + q * 3 - 1) (a + q * 3) (a + q * 3 + 1) s2
        (fun p => a ≤ p ∧ p < b) (by omega) (by omega) (by omega) (by omega) (by omega) (by omega)
      obtain ⟨m, s4, e4, hm, _⟩ := median_spec D i j k s3 (fun p => a ≤ p ∧ p < b) hi hj hk
        li lj lk
      rw [e1]; simp only []
      rw [e2]; simp only []
      rw [e3]; simp only []
      exact ⟨m, s4, e4, hm.1, hm.2⟩
    · obtain ⟨m, s, e, hm, _⟩ := median_spec D (a + q * 1) (a + q * 2) (a + q * 3) 0
        (fun p => a ≤ p ∧ p < b) (by omega) (by omega) (by omega) (by omega) (by omega) (by omega)
      exact ⟨m, s, e, hm.1, hm.2⟩
  · exact ⟨_, 0, rfl, by omega, by omega⟩

/-- Go's `choosePivot(data, a, b)` returns an index of `data[a:b]`. -/
theorem choosePivot_spec (D : List File) (a b : Nat) (hab : a < b) (hb : b ≤ D.length) :
    ∃ p h, choosePivot D a b = some (p, h) ∧ a ≤ p ∧ p < b := by
  obtain ⟨p, s, e, h1, h2⟩ := choosePivotIndex_spec D a b hab hb
  unfold choosePivot
  rw [e]
  exact ⟨p, _, rfl, h1, h2⟩

/-! ## Package sort: partition -/

theorem partitionUp_spec (D : List File) (a j : Nat) (ha : a < D.length) (hj : j < D.length) :
    ∀ (n i : Nat), j + 2 ≤ n + i → i ≤ j + 1 →
    ∃ i1, partitionUp D a j n i = some i1 ∧ i ≤ i1 ∧ i1 ≤ j + 1 ∧
      (∀ k, i ≤ k → k < i1 → strLess (nth D k).Name (nth D a).Name = true) ∧
      (i1 ≤ j → strLess (nth D i1).Name (nth D a).Name = false)
  | 0, i, h, h2 => by omega
  | n + 1, i, h, h2 => by
    by_cases hij : i ≤ j
    · simp only [partitionUp, hij, if_true, Less_nth D i a (by omega) ha]
      cases hl : strLess (nth D i).Name (nth D a).Name
      · exact ⟨i, rfl, Nat.le_refl _, h2, fun k h3 h4 => by omega, fun _ => hl⟩
      · obtain ⟨i1, e, h3, h4, h5, h6⟩ := partitionUp_spec D a j ha hj n (i + 1) (by omega) (by omega)
        refine ⟨i1, e, by omega, h4, fun k h7 h8 => ?_, h6⟩
        by_cases hk : k = i
        · rw [hk]; exact hl
        · exact h5 k (by omega) h8
    · exact ⟨i, by simp [partitionUp, hij], Nat.le_refl _, h2, fun k h3 h4 => by omega,
        fun h3 => absurd h3 hij⟩

theorem partitionDown_spec (D : List File) (a i : Nat) (ha : a < D.length) (hi : 1 ≤ i) :
    ∀ (n j : Nat), j + 2 ≤ n + i → i ≤ j + 1 → j < D.length →
    ∃ j1, partitionDown D a i n j = some j1 ∧ j1 ≤ j ∧ i ≤ j1 + 1 ∧
      (∀ k, j1 < k → k ≤ j → strLess (nth D k).Name (nth D a).Name = false) ∧
      (i ≤ j1 → strLess (nth D j1).Name (nth D a).Name = true)
  | 0, j, h, h2, _ => by omega
  | n + 1, j, h, h2, hj => by
    by_cases hij : i ≤ j
    · simp only [partitionDown, hij, if_true, Less_nth D j a hj ha]
      cases hl : strLess (nth D j).Name (nth D a).Name
      · obtain ⟨j1, e, h3, h4, h5, h6⟩ := partitionDown_spec D a i ha hi n (j - 1) (by omega)
          (by omega) (by omega)
        refine ⟨j1, e, by omega, h4, fun k h7 h8 => ?_, h6⟩
        by_cases hk : k = j
        · rw [hk]; exact hl
        · exact h5 k h7 (by omega)
      · exact ⟨j, rfl, Nat.le_refl _, h2, fun k h3 h4 => by omega, fun _ => hl⟩
    · exact ⟨j, by simp [partitionDown, hij], Nat.le_refl _, h2, fun k h3 h4 => by omega,
        fun h3 => absurd h3 hij⟩

/-- The loop of `partition`: with everything in `(a, i)` less than the pivot at
`a` and nothing in `(j, b)` less than it, the loop returns `j1` and data where
that holds of `(a, j1]` and `(j1, b)`. -/
theorem partitionLoop_spec (a b F : Nat) : ∀ (n i j : Nat) (D : List File),
    j + 1 - i < n → b + 1 ≤ F + a → a < i → i ≤ j + 1 → j < b → b ≤ D.length →
    (∀ k, a < k → k < i → strLess (nth D k).Name (nth D a).Name = true) →
    (∀ k, j < k → k < b → strLess (nth D k).Name (nth D a).Name = false) →
    ∃ j1 E, partitionLoop a F n i j D = some (j1, E) ∧ Rearr (a + 1) b D E ∧
      a ≤ j1 ∧ j1 < b ∧
      (∀ k, a < k → k ≤ j1 → strLess (nth E k).Name (nth E a).Name = true) ∧
      (∀ k, j1 < k → k < b → strLess (nth E k).Name (nth E a).Name = false)
  | 0, _, _, _, h, _, _, _, _, _, _, _ => absurd h (Nat.not_lt_zero _)
  | n + 1, i, j, D, h, hF, hai, hij, hjb, hb, hlo, hhi => by
    obtain ⟨i1, e1, u1, u2, u3, u4⟩ :=
      partitionUp_spec D a j (by omega) (by omega) F i (by omega) hij
    obtain ⟨j1, e2, d1, d2, d3, d4⟩ :=
      partitionDown_spec D a i1 (by omega) (by omega) F j (by omega) u2 (by omega)
    simp only [partitionLoop, e1, e2]
    have lo1 : ∀ k, a < k → k < i1 → strLess (nth D k).Name (nth D a).Name = true := by
      intro k h1 h2
      by_cases hk : k < i
      · exact hlo k h1 hk
      · exact u3 k (by omega) h2
    have hi1 : ∀ k, j1 < k → k < b → strLess (nth D k).Name (nth D a).Name = false := by
      intro k h1 h2
      by_cases hk : j < k
      · exact hhi k hk h2
      · exact d3 k h1 (by omega)
    by_cases hji : j1 < i1
    · simp only [hji, if_true]
      refine ⟨j1, D, rfl, Rearr.same _ _ _, by omega, by omega, ?_, hi1⟩
      intro k h1 h2
      exact lo1 k h1 (by omega)
    · simp only [hji, if_false]
      have hle : i1 ≤ j1 := by omega
      have x1 := u4 (by omega)
      have x2 := d4 hle
      have hne : i1 ≠ j1 := by
        intro e
        rw [e, x2] at x1
        exact Bool.noConfusion x1
      have hi1l : i1 < D.length := by omega
      have hj1l : j1 < D.length := by omega
      rw [Swap_nth D i1 j1 hi1l hj1l]
      simp only []
      have hna : nth (swapAt D i1 j1) a = nth D a := by
        rw [nth_swapAt D i1 j1 a hi1l hj1l, if_neg (by omega), if_neg (by omega)]
      obtain ⟨j2, E, e3, r, q1, q2, q3, q4⟩ := partitionLoop_spec a b F n (i1 + 1) (j1 - 1)
        (swapAt D i1 j1) (by omega) hF (by omega) (by omega) (by omega)
        (by rw [length_swapAt]; exact hb)
        (by
          intro k h1 h2
          rw [hna, nth_swapAt D i1 j1 k hi1l hj1l]
          by_cases hk : k = i1
          · rw [if_neg (by omega), if_pos hk]; exact x2
          · rw [if_neg (by omega), if_neg hk]; exact lo1 k h1 (by omega))
        (by
          intro k h1 h2
          rw [hna, nth_swapAt D i1 j1 k hi1l hj1l]
          by_cases hk : k = j1
          · rw [if_pos hk]; exact x1
          · rw [if_neg hk, if_neg (by omega)]; exact hi1 k (by omega) h2)
      exact ⟨j2, E, e3, (Rearr.of_swapAt (a + 1) b D i1 j1 (by omega) (by omega) (by omega)
        (by omega) hb).andThen r, q1, q2, q3, q4⟩

/-- Go's `partition(data, a, b, pivot)` returns `mid` in `[a, b)`, rearranges
`data[a:b]` only, and leaves entries less than the one at `mid` before it and
no such entry after it. -/
theorem partition_spec (D : List File) (a b pivot : Nat) (hap : a ≤ pivot) (hpb : pivot < b)
    (hb : b ≤ D.length) :
    ∃ mid flag E, partition D a b pivot = some (mid, flag, E) ∧ Rearr a b D E ∧
      a ≤ mid ∧ mid < b ∧
      (∀ k, a ≤ k → k < mid → strLess (nth E k).Name (nth E mid).Name = true) ∧
      (∀ k, mid < k → k < b → strLess (nth E k).Name (nth E mid).Name = false) := by
  have hal : a < D.length := by omega
  have hpl : pivot < D.length := by omega
  unfold partition
  rw [Swap_nth D a pivot hal hpl]
  simp only []
  have r0 : Rearr a b D (swapAt D a pivot) := Rearr.of_swapAt a b D a pivot (Nat.le_refl _)
    (by omega) hap hpb hb
  generalize swapAt D a pivot = D1 at r0
  have hl1 : D1.length = D.length := r0.length_eq
  obtain ⟨i, e1, u1, u2, u3, u4⟩ :=
    partitionUp_spec D1 a (b - 1) (by omega) (by omega) (b - a + 1) (a + 1) (by omega) (by omega)
  obtain ⟨j, e2, d1, d2, d3, d4⟩ :=
    partitionDown_spec D1 a i (by omega) (by omega) (b - a + 1) (b - 1) (by omega) u2 (by omega)
  rw [e1]; simp only []
  rw [e2]; simp only []
  have finish : ∀ (E : List File) (j1 : Nat), Rearr a b D E → a ≤ j1 → j1 < b →
      (∀ k, a < k → k ≤ j1 → strLess (nth E k).Name (nth E a).Name = true) →
      (∀ k, j1 < k → k < b → strLess (nth E k).Name (nth E a).Name = false) →
      Rearr a b D (swapAt E j1 a) ∧
      (∀ k, a ≤ k → k < j1 →
        strLess (nth (swapAt E j1 a) k).Name (nth (swapAt E j1 a) j1).Name = true) ∧
      (∀ k, j1 < k → k < b →
        strLess (nth (swapAt E j1 a) k).Name (nth (swapAt E j1 a) j1).Name = false) := by
    intro E j1 r h1 h2 lo hi
    have hlE : E.length = D.length := r.length_eq
    have hj1l : j1 < E.length := by omega
    have haE : a < E.length := by omega
    have hmid : nth (swapAt E j1 a) j1 = nth E a := by
      rw [nth_swapAt E j1 a j1 hj1l haE]
      by_cases h : j1 = a
      · rw [if_pos h, h]
      · rw [if_neg h, if_pos rfl]
    refine ⟨r.andThen (Rearr.of_swapAt a b E j1 a h1 h2 (Nat.le_refl _) (by omega) (by omega)),
      ?_, ?_⟩
    · intro k h3 h4
      rw [hmid, nth_swapAt E j1 a k hj1l haE]
      by_cases hk : k = a
      · rw [if_pos hk]; exact lo j1 (by omega) (Nat.le_refl _)
      · rw [if_neg hk, if_neg (by omega)]; exact lo k (by omega) (by omega)
    · intro k h3 h4
      rw [hmid, nth_swapAt E j1 a k hj1l haE, if_neg (by omega), if_neg (by omega)]
      exact hi k h3 h4
  by_cases hji : j < i
  · simp only [hji, if_true]
    rw [Swap_nth D1 j a (by omega) (by omega)]
    simp only []
    obtain ⟨f1, f2, f3⟩ := finish D1 j r0 (by omega) (by omega)
      (fun k h1 h2 => u3 k (by omega) (by omega))
      (fun k h1 h2 => d3 k h1 (by omega))
    exact ⟨j, true, _, rfl, f1, by omega, by omega, f2, f3⟩
  · simp only [hji, if_false]
    have hle : i ≤ j := by omega
    have x1 := u4 (by omega)
    have x2 := d4 hle
    have hne : i ≠ j := by
      intro e
      rw [e, x2] at x1
      exact Bool.noConfusion x1
    have hil : i < D1.length := by omega
    have hjl : j < D1.length := by omega
    rw [Swap_nth D1 i j hil hjl]
    simp only []
    have hna : nth (swapAt D1 i j) a = nth D1 a := by
      rw [nth_swapAt D1 i j a hil hjl, if_neg (by omega), if_neg (by omega)]
    obtain ⟨j2, E, e3, r, q1, q2, q3, q4⟩ := partitionLoop_spec a b (b - a + 1) (b - a + 1)
      (i + 1) (j - 1) (swapAt D1 i j) (by omega) (by omega) (by omega) (by omega) (by omega)
      (by rw [length_swapAt]; omega)
      (by
        intro k h1 h2
        rw [hna, nth_swapAt D1 i j k hil hjl]
        by_cases hk : k = i
        · rw [if_neg (by omega), if_pos hk]; exact x2
        · rw [if_neg (by omega), if_neg hk]; exact u3 k (by omega) (by omega))
      (by
        intro k h1 h2
        rw [hna, nth_swapAt D1 i j k hil hjl]
        by_cases hk : k = j
        · rw [if_pos hk]; exact x1
        · rw [if_neg hk, if_neg (by omega)]; exact d3 k (by omega) (by omega))
    rw [e3]; simp only []
    have rE : Rearr a b D E := r0.andThen ((Rearr.of_swapAt a b D1 i j (by omega) (by omega)
      (by omega) (by omega) (by omega)).andThen (r.widen (by omega) (Nat.le_refl _)))
    have hlE : E.length = D.length := rE.length_eq
    rw [Swap_nth E j2 a (by omega) (by omega)]
    simp only []
    obtain ⟨f1, f2, f3⟩ := finish E j2 rE q1 q2 q3 q4
    exact ⟨j2, false, _, rfl, f1, q1, q2, f2, f3⟩

/-! ## Package sort: partitionEqual -/

theorem partitionEqualUp_spec (D : List File) (a j : Nat) (ha : a < D.length)
    (hj : j < D.length) :
    ∀ (n i : Nat), j + 2 ≤ n + i → i ≤ j + 1 →
    ∃ i1, partitionEqualUp D a j n i = some i1 ∧ i ≤ i1 ∧ i1 ≤ j + 1 ∧
      (∀ k, i ≤ k → k < i1 → strLess (nth D a).Name (nth D k).Name = false) ∧
      (i1 ≤ j → strLess (nth D a).Name (nth D i1).Name = true)
  | 0, i, h, h2 => by omega
  | n + 1, i, h, h2 => by
    by_cases hij : i ≤ j
    · simp only [partitionEqualUp, hij, if_true, Less_nth D a i ha (by omega)]
      cases hl : strLess (nth D a).Name (nth D i).Name
      · obtain ⟨i1, e, h3, h4, h5, h6⟩ :=
          partitionEqualUp_spec D a j ha hj n (i + 1) (by omega) (by omega)
        refine ⟨i1, e, by omega, h4, fun k h7 h8 => ?_, h6⟩
        by_cases hk : k = i
        · rw [hk]; exact hl
        · exact h5 k (by omega) h8
      · exact ⟨i, rfl, Nat.le_refl _, h2, fun k h3 h4 => by omega, fun _ => hl⟩
    · exact ⟨i, by simp [partitionEqualUp, hij], Nat.le_refl _, h2, fun k h3 h4 => by omega,
        fun h3 => absurd h3 hij⟩

theorem partitionEqualDown_spec (D : List File) (a i : Nat) (ha : a < D.length) (hi : 1 ≤ i) :
    ∀ (n j : Nat), j + 2 ≤ n + i → i ≤ j + 1 → j < D.length →
    ∃ j1, partitionEqualDown D a i n j = some j1 ∧ j1 ≤ j ∧ i ≤ j1 + 1 ∧
      (∀ k, j1 < k → k ≤ j → strLess (nth D a).Name (nth D k).Name = true) ∧
      (i ≤ j1 → strLess (nth D a).Name (nth D j1).Name = false)
  | 0, j, h, h2, _ => by omega
  | n + 1, j, h, h2, hj => by
    by_cases hij : i ≤ j
    · simp only [partitionEqualDown, hij, if_true, Less_nth D a j ha hj]
      cases hl : strLess (nth D a).Name (nth D j).Name
      · exact ⟨j, rfl, Nat.le_refl _, h2, fun k h3 h4 => by omega, fun _ => hl⟩
      · obtain ⟨j1, e, h3, h4, h5, h6⟩ := partitionEqualDown_spec D a i ha hi n (j - 1)
          (by omega) (by omega) (by omega)
        refine ⟨j1, e, by omega, h4, fun k h7 h8 => ?_, h6⟩
        by_cases hk : k = j
        · rw [hk]; exact hl
        · exact h5 k h7 (by omega)
    · exact ⟨j, by simp [partitionEqualDown, hij], Nat.le_refl _, h2, fun k h3 h4 => by omega,
        fun h3 => absurd h3 hij⟩

theorem partitionEqualLoop_spec (a b F : Nat) : ∀ (n i j : Nat) (D : List File),
    j + 1 - i < n → b + 1 ≤ F + a → a < i → i ≤ j + 1 → j < b → b ≤ D.length →
    (∀ k, a < k → k < i → strLess (nth D a).Name (nth D k).Name = false) →
    (∀ k, j < k → k < b → strLess (nth D a).Name (nth D k).Name = true) →
    ∃ i1 E, partitionEqualLoop a F n i j D = some (i1, E) ∧ Rearr (a + 1) b D E ∧
      a < i1 ∧ i1 ≤ b ∧
      (∀ k, a < k → k < i1 → strLess (nth E a).Name (nth E k).Name = false) ∧
      (∀ k, i1 ≤ k → k < b → strLess (nth E a).Name (nth E k).Name = true)
  | 0, _, _, _, h, _, _, _, _, _, _, _ => absurd h (Nat.not_lt_zero _)
  | n + 1, i, j, D, h, hF, hai, hij, hjb, hb, hlo, hhi => by
    obtain ⟨i1, e1, u1, u2, u3, u4⟩ :=
      partitionEqualUp_spec D a j (by omega) (by omega) F i (by omega) hij
    obtain ⟨j1, e2, d1, d2, d3, d4⟩ :=
      partitionEqualDown_spec D a i1 (by omega) (by omega) F j (by omega) u2 (by omega)
    simp only [partitionEqualLoop, e1, e2]
    have lo1 : ∀ k, a < k → k < i1 → strLess (nth D a).Name (nth D k).Name = false := by
      intro k h1 h2
      by_cases hk : k < i
      · exact hlo k h1 hk
      · exact u3 k (by omega) h2
    have hi1 : ∀ k, j1 < k → k < b → strLess (nth D a).Name (nth D k).Name = true := by
      intro k h1 h2
      by_cases hk : j < k
      · exact hhi k hk h2
      · exact d3 k h1 (by omega)
    by_cases hji : j1 < i1
    · simp only [hji, if_true]
      exact ⟨i1, D, rfl, Rearr.same _ _ _, by omega, by omega, lo1,
        fun k h1 h2 => hi1 k (by omega) h2⟩
    · simp only [hji, if_false]
      have hle : i1 ≤ j1 := by omega
      have x1 := u4 (by omega)
      have x2 := d4 hle
      have hne : i1 ≠ j1 := by
        intro e
        rw [e, x2] at x1
        exact Bool.noConfusion x1
      have hi1l : i1 < D.length := by omega
      have hj1l : j1 < D.length := by omega
      rw [Swap_nth D i1 j1 hi1l hj1l]
      simp only []
      have hna : nth (swapAt D i1 j1) a = nth D a := by
        rw [nth_swapAt D i1 j1 a hi1l hj1l, if_neg (by omega), if_neg (by omega)]
      obtain ⟨i2, E, e3, r, q1, q2, q3, q4⟩ := partitionEqualLoop_spec a b F n (i1 + 1) (j1 - 1)
        (swapAt D i1 j1) (by omega) hF (by omega) (by omega) (by omega)
        (by rw [length_swapAt]; exact hb)
        (by
          intro k h1 h2
          rw [hna, nth_swapAt D i1 j1 k hi1l hj1l]
          by_cases hk : k = i1
          · rw [if_neg (by omega), if_pos hk]; exact x2
          · rw [if_neg (by omega), if_neg hk]; exact lo1 k h1 (by omega))
        (by
          intro k h1 h2
          rw [hna, nth_swapAt D i1 j1 k hi1l hj1l]
          by_cases hk : k = j1
          · rw [if_pos hk]; exact x1
          · rw [if_neg hk, if_neg (by omega)]; exact hi1 k (by omega) h2)
      exact ⟨i2, E, e3, (Rearr.of_swapAt (a + 1) b D i1 j1 (by omega) (by omega) (by omega)
        (by omega) hb).andThen r, q1, q2, q3, q4⟩

/-- Go's `partitionEqual(data, a, b, pivot)` returns `mid` in `(a, b]`,
rearranges `data[a:b]` only, and leaves before `mid` the entries the pivot is
not less than, from `mid` on those it is less than. -/
theorem partitionEqual_spec (D : List File) (a b pivot : Nat) (hap : a ≤ pivot) (hpb : pivot < b)
    (hb : b ≤ D.length) :
    ∃ mid E, partitionEqual D a b pivot = some (mid, E) ∧ Rearr a b D E ∧
      a < mid ∧ mid ≤ b ∧ nth E a = nth D pivot ∧
      (∀ k, a ≤ k → k < mid → strLess (nth D pivot).Name (nth E k).Name = false) ∧
      (∀ k, mid ≤ k → k < b → strLess (nth D pivot).Name (nth E k).Name = true) := by
  have hal : a < D.length := by omega
  have hpl : pivot < D.length := by omega
  unfold partitionEqual
  rw [Swap_nth D a pivot hal hpl]
  simp only []
  have r0 : Rearr a b D (swapAt D a pivot) := Rearr.of_swapAt a b D a pivot (Nat.le_refl _)
    (by omega) hap hpb hb
  have hp : nth (swapAt D a pivot) a = nth D pivot := by
    rw [nth_swapAt D a pivot a hal hpl]
    by_cases h : a = pivot
    · rw [if_pos h, h]
    · rw [if_neg h, if_pos rfl]
  generalize swapAt D a pivot = D1 at r0 hp
  have hl1 : D1.length = D.length := r0.length_eq
  obtain ⟨i, E, e, r, q1, q2, q3, q4⟩ := partitionEqualLoop_spec a b (b - a + 1) (b - a + 1)
    (a + 1) (b - 1) D1 (by omega) (by omega) (by omega) (by omega) (by omega) (by omega)
    (fun k h1 h2 => by omega) (fun k h1 h2 => by omega)
  have hEa : nth E a = nth D pivot := by rw [r.2 a (Or.inl (by omega)), hp]
  refine ⟨i, E, e, r0.andThen (r.widen (by omega) (Nat.le_refl _)), q1, q2, hEa, ?_, ?_⟩
  · intro k h1 h2
    rw [← hEa]
    by_cases hk : k = a
    · rw [hk]; exact strLess_irrefl _
    · exact q3 k (by omega) h2
  · intro k h1 h2
    rw [← hEa]
    exact q4 k h1 h2

/-! ## Package sort: heap sort -/

theorem siftDownLoop_spec (first lo hi : Nat) : ∀ (n root : Nat) (E : List File),
    hi + 1 ≤ n + root → 1 ≤ n → lo ≤ root → first + hi ≤ E.length →
    (∀ r c, lo ≤ r → r ≠ root → (c = 2 * r + 1 ∨ c = 2 * r + 2) → c < hi →
      FileLe (nth E (first + c)) (nth E (first + r))) →
    (∀ q c, lo ≤ q → (root = 2 * q + 1 ∨ root = 2 * q + 2) →
      (c = 2 * root + 1 ∨ c = 2 * root + 2) → c < hi →
      FileLe (nth E (first + c)) (nth E (first + q))) →
    ∃ E1, siftDownLoop hi first n root E = some E1 ∧ Rearr first (first + hi) E E1 ∧
      HeapAbove first lo hi E1
  | 0, _, _, _, h, _, _, _, _ => by omega
  | n + 1, root, E, hf, _, hlo, hlen, P1, P2 => by
    by_cases hret : hi ≤ 2 * root + 1
    · refine ⟨E, by simp [siftDownLoop, hret], Rearr.same _ _ _, ?_⟩
      intro r c h1 h2 h3
      exact P1 r c h1 (by omega) h2 h3
    · simp only [siftDownLoop, hret, if_false]
      -- the larger child
      have hup : ∃ up : Bool,
          (if 2 * root + 1 + 1 < hi then
            ByFileName.Less E (first + (2 * root + 1)) (first + (2 * root + 1) + 1)
          else some false) = some up ∧
          (∀ c, (c = 2 * root + 1 ∨ c = 2 * root + 2) → c < hi →
            FileLe (nth E (first + c))
              (nth E (first + (if up then 2 * root + 1 + 1 else 2 * root + 1)))) := by
        by_cases h2 : 2 * root + 1 + 1 < hi
        · rw [if_pos h2, Less_nth E _ _ (by omega) (by omega)]
          cases hl : strLess (nth E (first + (2 * root + 1))).Name
              (nth E (first + (2 * root + 1) + 1)).Name
          · refine ⟨false, rfl, fun c hc _ => ?_⟩
            simp only [Bool.false_eq_true, if_false]
            rcases hc with hc | hc
            · rw [hc]; exact FileLe.self _
            · rw [hc]; exact hl
          · refine ⟨true, rfl, fun c hc _ => ?_⟩
            simp only [if_true]
            rcases hc with hc | hc
            · rw [hc]; exact FileLe.of_less hl
            · rw [hc]; exact FileLe.self _
        · rw [if_neg h2]
          refine ⟨false, rfl, fun c hc hc2 => ?_⟩
          simp only [Bool.false_eq_true, if_false]
          rcases hc with hc | hc
          · rw [hc]; exact FileLe.self _
          · omega
      obtain ⟨up, e1, hmax⟩ := hup
      rw [e1]
      simp only []
      have hch : ∃ ch, ch = (if up then 2 * root + 1 + 1 else 2 * root + 1) ∧
          (ch = 2 * root + 1 ∨ ch = 2 * root + 2) ∧ ch < hi := by
        refine ⟨_, rfl, ?_, ?_⟩
        · cases up <;> simp
        · cases up
          · simp; omega
          · by_cases h2 : 2 * root + 1 + 1 < hi
            · simpa using h2
            · rw [if_neg h2] at e1
              exact absurd (Option.some.inj e1) (by simp)
      obtain ⟨ch, ech, hchild, hchi⟩ := hch
      rw [← ech] at hmax ⊢
      have hrl : first + root < E.length := by omega
      have hcl : first + ch < E.length := by omega
      rw [Less_nth E _ _ hrl hcl]
      cases hl : strLess (nth E (first + root)).Name (nth E (first + ch)).Name
      · refine ⟨E, rfl, Rearr.same _ _ _, ?_⟩
        intro r c h1 h2 h3
        by_cases hr : r = root
        · rw [hr] at h2 ⊢
          exact (hmax c h2 h3).chain hl
        · exact P1 r c h1 hr h2 h3
      · simp only []
        rw [Swap_nth E _ _ hrl hcl]
        simp only []
        have hH : ∀ k, nth (swapAt E (first + root) (first + ch)) (first + k) =
            if k = ch then nth E (first + root) else if k = root then nth E (first + ch)
            else nth E (first + k) := by
          intro k
          rw [nth_swapAt E _ _ _ hrl hcl]
          by_cases h1 : k = ch
          · rw [if_pos (by omega), if_pos h1]
          · rw [if_neg (by omega), if_neg h1]
            by_cases h2 : k = root
            · rw [if_pos (by omega), if_pos h2]
            · rw [if_neg (by omega), if_neg h2]
        obtain ⟨E1, e2, r2, h2⟩ := siftDownLoop_spec first lo hi n ch
          (swapAt E (first + root) (first + ch)) (by omega) (by omega) (by omega)
          (by rw [length_swapAt]; exact hlen)
          (by
            intro r c h1 h2 h3 h4
            rw [hH, hH]
            by_cases hr : r = root
            · rw [if_neg h2, if_pos hr]
              by_cases hc : c = ch
              · rw [if_pos hc]; exact FileLe.of_less hl
              · rw [if_neg hc, if_neg (by omega)]
                exact hmax c (by omega) h4
            · rw [if_neg h2, if_neg hr, if_neg (by omega)]
              by_cases hc : c = root
              · rw [if_pos hc]
                exact P2 r ch h1 (by omega) hchild hchi
              · rw [if_neg hc]
                exact P1 r c h1 hr h3 h4)
          (by
            intro q c h1 h2 h3 h4
            have hq : q = root := by omega
            rw [hH, hH, if_neg (by omega), if_neg (by omega), if_neg (by omega), if_pos hq]
            exact P1 ch c (by omega) (by omega) h3 h4)
        exact ⟨E1, e2, (Rearr.of_swapAt first (first + hi) E _ _ (by omega) (by omega) (by omega)
          (by omega) hlen).andThen r2, h2⟩

/-- In a heap the root is not before any node. -/
theorem HeapAbove.root_max (first hi : Nat) (E : List File) (h : HeapAbove first 0 hi E) :
    ∀ (m c : Nat), c < m → c < hi → FileLe (nth E (first + c)) (nth E (first + 0))
  | 0, _, h1, _ => by omega
  | m + 1, c, _, h2 => by
    by_cases hc : c = 0
    · rw [hc]; exact FileLe.self _
    · have hp : c = 2 * ((c - 1) / 2) + 1 ∨ c = 2 * ((c - 1) / 2) + 2 := by omega
      exact (h ((c - 1) / 2) c (Nat.zero_le _) hp h2).chain
        (HeapAbove.root_max first hi E h m ((c - 1) / 2) (by omega) (by omega))

theorem heapSortBuild_spec (first hi : Nat) : ∀ (k : Nat) (E : List File),
    first + hi ≤ E.length → HeapAbove first k hi E →
    ∃ E1, heapSortBuild hi first k E = some E1 ∧ Rearr first (first + hi) E E1 ∧
      HeapAbove first 0 hi E1
  | 0, E, _, h => ⟨E, rfl, Rearr.same _ _ _, h⟩
  | k + 1, E, hlen, h => by
    obtain ⟨E1, e1, r1, h1⟩ := siftDownLoop_spec first k hi (hi + 1) k E (by omega) (by omega)
      (Nat.le_refl _) hlen
      (fun r c h1 h2 h3 h4 => h r c (by omega) h3 h4)
      (fun q c h1 h2 h3 h4 => by omega)
    obtain ⟨E2, e2, r2, h2⟩ := heapSortBuild_spec first hi k E1
      (by rw [r1.length_eq]; exact hlen) h1
    refine ⟨E2, ?_, r1.andThen r2, h2⟩
    simp only [heapSortBuild, siftDown, e1, e2]

theorem heapSortPop_spec (first hi : Nat) : ∀ (i : Nat) (E : List File),
    first + hi ≤ E.length → i ≤ hi → HeapAbove first 0 i E →
    (∀ k l, i ≤ k → k < l → l < hi → FileLe (nth E (first + k)) (nth E (first + l))) →
    (∀ k l, k < i → i ≤ l → l < hi → FileLe (nth E (first + k)) (nth E (first + l))) →
    ∃ E1, heapSortPop first i E = some E1 ∧ Rearr first (first + hi) E E1 ∧
      (∀ k l, k < l → l < hi → FileLe (nth E1 (first + k)) (nth E1 (first + l)))
  | 0, E, _, _, _, S1, _ => ⟨E, rfl, Rearr.same _ _ _, fun k l h1 h2 => S1 k l (Nat.zero_le _) h1 h2⟩
  | i + 1, E, hlen, hi1, hheap, S1, S2 => by
    have hfl : first < E.length := by omega
    have hil : first + i < E.length := by omega
    simp only [heapSortPop]
    rw [Swap_nth E _ _ hfl hil]
    simp only []
    have hH : ∀ k, nth (swapAt E first (first + i)) (first + k) =
        if k = i then nth E (first + 0) else if k = 0 then nth E (first + i)
        else nth E (first + k) := by
      intro k
      rw [nth_swapAt E _ _ _ hfl hil]
      by_cases h1 : k = i
      · rw [if_pos (by omega), if_pos h1]; rfl
      · rw [if_neg (by omega), if_neg h1]
        by_cases h2 : k = 0
        · rw [if_pos (by omega), if_pos h2]
        · rw [if_neg (by omega), if_neg h2]
    have r0 : Rearr first (first + hi) E (swapAt E first (first + i)) :=
      Rearr.of_swapAt first (first + hi) E _ _ (Nat.le_refl _) (by omega) (by omega) (by omega) hlen
    have hmaxall := HeapAbove.root_max first (i + 1) E hheap
    generalize swapAt E first (first + i) = D1 at hH r0
    have hl1 : D1.length = E.length := r0.length_eq
    obtain ⟨E1, e1, r1, h1⟩ := siftDownLoop_spec first 0 i (i + 1) 0 D1 (by omega) (by omega)
      (Nat.le_refl _) (by omega)
      (by
        intro r c h1 h2 h3 h4
        rw [hH, hH, if_neg (by omega), if_neg (by omega), if_neg (by omega), if_neg (by omega)]
        exact hheap r c h1 h3 (by omega))
      (fun q c h1 h2 h3 h4 => by omega)
    have hl2 : E1.length = E.length := by rw [r1.length_eq, hl1]
    have hsame : ∀ l, i ≤ l → nth E1 (first + l) = nth D1 (first + l) :=
      fun l hl => r1.2 _ (Or.inr (by omega))
    have hmem : ∀ k, k < i → ∃ k1, k1 < i ∧ nth E1 (first + k) = nth D1 (first + k1) := by
      intro k hk
      have hp := r1.seg_perm (by omega) (by omega)
      have hx : nth E1 (first + k) ∈ seg E1 first (first + i) :=
        (mem_seg E1 first (first + i) (by omega) _).2 ⟨first + k, by omega, by omega, rfl⟩
      obtain ⟨k1, h1, h2, h3⟩ := (mem_seg D1 first (first + i) (by omega) _).1 (hp.subset hx)
      exact ⟨k1 - first, by omega, by rw [← h3]; congr 1; omega⟩
    obtain ⟨E2, e2, r2, h2⟩ := heapSortPop_spec first hi i E1 (by omega) (by omega) h1
      (by
        intro k l h3 h4 h5
        have hDl : nth D1 (first + l) = nth E (first + l) := by
          rw [hH, if_neg (by omega), if_neg (by omega)]
        rw [hsame k h3, hsame l (by omega), hDl, hH]
        by_cases hk : k = i
        · rw [if_pos hk]
          exact S2 0 l (by omega) (by omega) h5
        · rw [if_neg hk, if_neg (by omega)]
          exact S1 k l (by omega) h4 h5)
      (by
        intro k l h3 h4 h5
        obtain ⟨k1, h6, h7⟩ := hmem k h3
        have hk1 : FileLe (nth D1 (first + k1)) (nth E (first + 0)) ∧
            ∀ l, i + 1 ≤ l → l < hi → FileLe (nth D1 (first + k1)) (nth E (first + l)) := by
          rw [hH, if_neg (by omega)]
          by_cases hz : k1 = 0
          · rw [if_pos hz]
            exact ⟨hmaxall (i + 1) i (by omega) (by omega),
              fun l h8 h9 => S2 i l (by omega) h8 h9⟩
          · rw [if_neg hz]
            exact ⟨hmaxall (i + 1) k1 (by omega) (by omega),
              fun l h8 h9 => S2 k1 l (by omega) h8 h9⟩
        rw [h7, hsame l h4, hH l]
        by_cases hl : l = i
        · rw [if_pos hl]; exact hk1.1
        · rw [if_neg hl, if_neg (by omega)]
          exact hk1.2 l (by omega) h5)
    refine ⟨E2, ?_, r0.andThen ((r1.widen (Nat.le_refl _) (by omega)).andThen r2), h2⟩
    simp only [siftDown, e1, e2]

/-- Go's `heapSort(data, a, b)` returns, rearranges `data[a:b]` only, and leaves
it sorted. -/
theorem heapSort_spec (D : List File) (a b : Nat) (hab : a ≤ b) (hb : b ≤ D.length) :
    ∃ E, heapSort D a b = some E ∧ Rearr a b D E ∧ (seg E a b).Pairwise FileLe := by
  have hab2 : a + (b - a) = b := by omega
  obtain ⟨E1, e1, r1, h1⟩ := heapSortBuild_spec a (b - a) ((b - a - 1) / 2 + 1) D (by omega)
    (fun r c h1 h2 h3 => by omega)
  obtain ⟨E2, e2, r2, h2⟩ := heapSortPop_spec a (b - a) (b - a) E1
    (by rw [r1.length_eq]; omega) (Nat.le_refl _) h1
    (fun k l h3 h4 h5 => by omega) (fun k l h3 h4 h5 => by omega)
  rw [hab2] at r1 r2
  refine ⟨E2, by simp only [heapSort, e1, e2], r1.andThen r2, ?_⟩
  refine pairwise_seg E2 a b (by rw [r2.length_eq, r1.length_eq]; exact hb) ?_
  intro i j h3 h4 h5
  have := h2 (i - a) (j - a) (by omega) (by omega)
  have ei : a + (i - a) = i := by omega
  have ej : a + (j - a) = j := by omega
  rwa [ei, ej] at this

/-! ## Package sort: partialInsertionSort -/

theorem PredBound.of_Rearr {D E : List File} {a b : Nat} (h : PredBound D a b)
    (r : Rearr a b D E) (hab : a ≤ b) (hb : b ≤ D.length) : PredBound E a b := by
  intro ha y hy
  rw [r.2 (a - 1) (Or.inl (by omega))]
  exact h ha y ((r.seg_perm hab hb).subset hy)

theorem Srt.of_pairwise_seg (D : List File) (a b : Nat) (hb : b ≤ D.length)
    (h : (seg D a b).Pairwise FileLe) : Srt D a b := by
  intro p q h1 h2 h3
  rw [List.pairwise_iff_getElem] at h
  have hl := length_seg D a b hb
  have hp : p - a < (seg D a b).length := by omega
  have hq : q - a < (seg D a b).length := by omega
  have := h (p - a) (q - a) hp hq (by omega)
  have e1 : (seg D a b)[p - a]? = some (nth D p) := by
    rw [getElem?_seg, if_pos (by omega)]
    have : a + (p - a) = p := by omega
    rw [this, getElem?_eq_nth D p (by omega)]
  have e2 : (seg D a b)[q - a]? = some (nth D q) := by
    rw [getElem?_seg, if_pos (by omega)]
    have : a + (q - a) = q := by omega
    rw [this, getElem?_eq_nth D q (by omega)]
  obtain ⟨_, e1⟩ := List.getElem?_eq_some.1 e1
  obtain ⟨_, e2⟩ := List.getElem?_eq_some.1 e2
  rwa [e1, e2] at this

theorem Srt.extend_adj (D : List File) (a i i1 : Nat) (h : Srt D a i)
    (hadj : ∀ k, a < k → i ≤ k → k < i1 → FileLe (nth D (k - 1)) (nth D k)) :
    ∀ (q p : Nat), a ≤ p → p < q → q < i1 → FileLe (nth D p) (nth D q)
  | 0, p, _, h2, _ => by omega
  | q + 1, p, h1, h2, h3 => by
    by_cases hq : q + 1 < i
    · exact h p (q + 1) h1 h2 hq
    · have hstep := hadj (q + 1) (by omega) (by omega) h3
      simp only [Nat.add_sub_cancel] at hstep
      by_cases hp : p = q
      · rw [hp]; exact hstep
      · exact (Srt.extend_adj D a i i1 h hadj q p h1 (by omega) (by omega)).chain hstep

theorem partialInsertionSortScan_spec (D : List File) (b : Nat) (hb : b ≤ D.length) :
    ∀ (n i : Nat), b + 1 ≤ n + i → 1 ≤ i → i ≤ b →
    ∃ i1, partialInsertionSortScan D b n i = some i1 ∧ i ≤ i1 ∧ i1 ≤ b ∧
      (∀ k, i ≤ k → k < i1 → FileLe (nth D (k - 1)) (nth D k)) ∧
      (i1 < b → strLess (nth D i1).Name (nth D (i1 - 1)).Name = true)
  | 0, i, h, _, h3 => by omega
  | n + 1, i, h, h2, h3 => by
    by_cases hib : i < b
    · simp only [partialInsertionSortScan, hib, if_true, Less_nth D i (i - 1) (by omega) (by omega)]
      cases hl : strLess (nth D i).Name (nth D (i - 1)).Name
      · obtain ⟨i1, e, q1, q2, q3, q4⟩ :=
          partialInsertionSortScan_spec D b hb n (i + 1) (by omega) (by omega) (by omega)
        refine ⟨i1, e, by omega, q2, fun k h4 h5 => ?_, q4⟩
        by_cases hk : k = i
        · rw [hk]; exact hl
        · exact q3 k (by omega) h5
      · exact ⟨i, rfl, Nat.le_refl _, h3, fun k h4 h5 => by omega, fun _ => hl⟩
    · exact ⟨i, by simp [partialInsertionSortScan, hib], Nat.le_refl _, h3,
        fun k h4 h5 => by omega, fun h4 => absurd h4 hib⟩

theorem shiftRight_spec (b : Nat) : ∀ (n j : Nat) (D : List File),
    b + 1 ≤ n + j → 1 ≤ j → j ≤ b → b ≤ D.length →
    ∃ E, shiftRight b n j D = some E ∧ Rearr (j - 1) b D E
  | 0, j, D, h, _, h3, _ => by omega
  | n + 1, j, D, h, h2, h3, hb => by
    by_cases hjb : j < b
    · simp only [shiftRight, hjb, if_true, Less_nth D j (j - 1) (by omega) (by omega)]
      cases strLess (nth D j).Name (nth D (j - 1)).Name
      · exact ⟨D, rfl, Rearr.same _ _ _⟩
      · simp only []
        rw [Swap_nth D j (j - 1) (by omega) (by omega)]
        simp only []
        obtain ⟨E, e, r⟩ := shiftRight_spec b n (j + 1) (swapAt D j (j - 1)) (by omega)
          (by omega) (by omega) (by rw [length_swapAt]; exact hb)
        exact ⟨E, e, (Rearr.of_swapAt (j - 1) b D j (j - 1) (by omega) hjb (Nat.le_refl _)
          (by omega) hb).andThen (r.widen (by omega) (Nat.le_refl _))⟩
    · exact ⟨D, by simp [shiftRight, hjb], Rearr.same _ _ _⟩

theorem sinkInto_append (x : File) (L : List File)
    (h : ∀ y, L.head? = some y → strLess x.Name y.Name = false) :
    ∀ P : List File, sinkInto x (P ++ L) = sinkInto x P ++ L
  | [] => by
    cases L with
    | nil => rfl
    | cons y l => simp [sinkInto, h y rfl]
  | z :: P => by
    have ih := sinkInto_append x L h P
    show sinkInto x (z :: (P ++ L)) = sinkInto x (z :: P) ++ L
    simp only [sinkInto]
    split
    · rw [ih]; rfl
    · rfl

/-- The loop of `partialInsertionSort` that shifts the smaller entry to the left,
run from `m` on a slice whose part `[a, m)` is sorted and bounded below by the
entry before it: it returns and leaves `[a, m]` sorted, touching nothing else. -/
theorem shiftLeft_spec (D : List File) (a m : Nat) (ham : a ≤ m) (hm : m < D.length)
    (hpred : 0 < a → FileLe (nth D (a - 1)) (nth D m))
    (hs : (seg D a m).Pairwise FileLe) :
    ∃ E, insertionSortInner 0 m D = some E ∧ Rearr a (m + 1) D E ∧
      (seg E a (m + 1)).Pairwise FileLe := by
  have hD : D = D.take a ++ (seg D a m ++ (nth D m :: D.drop (m + 1))) := by
    have h1 := (cut_three D a m ham (by omega)).1
    have h2 := (cut_three D m (m + 1) (by omega) (by omega)).1
    rw [seg_single D m hm] at h2
    have h3 : D.drop m = nth D m :: D.drop (m + 1) := by
      have := congrArg (List.drop m) h2
      rw [List.drop_append_of_le_length (by simp; omega)] at this
      simpa [List.drop_eq_nil_of_le, Nat.min_eq_left (Nat.le_of_lt hm)] using this
    rw [← h3]
    exact h1
  have hLlen : (D.take a).length = a := by simp; omega
  have hPlen : (seg D a m).length = m - a := length_seg D a m (by omega)
  have hstop : ∀ y, (D.take a).reverse.head? = some y →
      strLess (nth D m).Name y.Name = false := by
    intro y hy
    rw [List.head?_reverse, List.getLast?_eq_getElem?, hLlen] at hy
    by_cases ha : 0 < a
    · rw [List.getElem?_take_of_lt (by omega)] at hy
      rw [← nth_eq_of_getElem? D (a - 1) y hy]
      exact hpred ha
    · have : a = 0 := by omega
      subst this
      simp at hy
  generalize hL : D.take a = L at hD hLlen hstop
  generalize hP : seg D a m = P at hD hPlen hs
  generalize hx : nth D m = x at hD hstop
  generalize hr : D.drop (m + 1) = r at hD
  have hrun := insertionSortInner_at [] x r (L ++ P).reverse
  have hm2 : m = (L ++ P).length := by simp; omega
  simp only [List.length_nil, Nat.zero_add, List.nil_append, List.length_reverse,
    List.reverse_reverse, ← hm2] at hrun
  have hD2 : D = (L ++ P) ++ x :: r := by rw [hD]; simp
  have hsink : (sinkInto x (L ++ P).reverse).reverse = L ++ (sinkInto x P.reverse).reverse := by
    rw [List.reverse_append, sinkInto_append x L.reverse hstop P.reverse]
    simp
  have hperm : (sinkInto x P.reverse).reverse.Perm (P ++ [x]) :=
    (List.reverse_perm _).trans ((perm_sinkInto x P.reverse).trans
      ((List.perm_cons x).2 (List.reverse_perm P) |>.trans (List.perm_append_singleton x P).symm))
  refine ⟨L ++ ((sinkInto x P.reverse).reverse ++ r), ?_, ?_, ?_⟩
  · rw [hD2, hrun, hsink]; simp
  · have := Rearr.of_middle L (P ++ [x]) (sinkInto x P.reverse).reverse r hperm
    have e1 : L ++ (P ++ [x] ++ r) = D := by rw [hD]; simp
    have e2 : L.length + (P ++ [x]).length = m + 1 := by simp; omega
    rw [e1, e2, hLlen] at this
    exact this
  · have e2 : m + 1 = L.length + (sinkInto x P.reverse).reverse.length := by
      rw [hperm.length_eq]; simp; omega
    have e3 : seg (L ++ ((sinkInto x P.reverse).reverse ++ r)) a (m + 1)
        = (sinkInto x P.reverse).reverse := by
      rw [e2, ← hLlen]
      exact seg_middle L _ r
    rw [e3, List.pairwise_reverse]
    exact pairwise_sinkInto x P.reverse (List.pairwise_reverse.2 hs)

theorem Srt.of_Rearr_above {D E : List File} {a i c b : Nat} (h : Srt D a i) (r : Rearr c b D E)
    (hc : i ≤ c) : Srt E a i := by
  intro p q h1 h2 h3
  rw [r.2 p (Or.inl (by omega)), r.2 q (Or.inl (by omega))]
  exact h p q h1 h2 h3

theorem partialInsertionSortLoop_spec (a b : Nat) : ∀ (s i : Nat) (D : List File),
    a < i → i ≤ b → b ≤ D.length → PredBound D a b → Srt D a i →
    ∃ r E, partialInsertionSortLoop a b s i D = some (r, E) ∧ Rearr a b D E ∧
      (r = true → Srt E a b)
  | 0, _, D, _, _, _, _, _ =>
    ⟨false, D, rfl, Rearr.same _ _ _, fun h => Bool.noConfusion h⟩
  | s + 1, i, D, hai, hib, hb, hpred, hsrt => by
    obtain ⟨i1, e1, q1, q2, q3, q4⟩ :=
      partialInsertionSortScan_spec D b hb (b - a + 1) i (by omega) (by omega) hib
    have hsrt1 : Srt D a i1 := fun p q h1 h2 h3 =>
      Srt.extend_adj D a i i1 hsrt (fun k _ h5 h6 => q3 k h5 h6) q p h1 h2 h3
    simp only [partialInsertionSortLoop, e1]
    by_cases hend : i1 = b
    · rw [if_pos hend]
      exact ⟨true, D, rfl, Rearr.same _ _ _, fun _ => hend ▸ hsrt1⟩
    · rw [if_neg hend]
      by_cases hshort : b - a < 50
      · rw [if_pos hshort]
        exact ⟨false, D, rfl, Rearr.same _ _ _, fun h => Bool.noConfusion h⟩
      · rw [if_neg hshort]
        have hi1b : i1 < b := by omega
        have hl1 : i1 < D.length := by omega
        have hl0 : i1 - 1 < D.length := by omega
        rw [Swap_nth D i1 (i1 - 1) hl1 hl0]
        simp only []
        have r1 : Rearr a b D (swapAt D i1 (i1 - 1)) :=
          Rearr.of_swapAt a b D i1 (i1 - 1) (by omega) hi1b (by omega) (by omega) hb
        have hn : ∀ k, nth (swapAt D i1 (i1 - 1)) k =
            if k = i1 - 1 then nth D i1 else if k = i1 then nth D (i1 - 1) else nth D k :=
          fun k => nth_swapAt D i1 (i1 - 1) k hl1 hl0
        generalize swapAt D i1 (i1 - 1) = D1 at r1 hn
        have hlD1 : D1.length = D.length := r1.length_eq
        have hsrtD1 : Srt D1 a (i1 - 1) := by
          intro p q h1 h2 h3
          rw [hn, hn, if_neg (by omega), if_neg (by omega), if_neg (by omega), if_neg (by omega)]
          exact hsrt1 p q h1 h2 (by omega)
        -- shifting the smaller entry to the left
        have hleft : ∃ E2, (if 2 ≤ i1 - a then insertionSortInner 0 (i1 - 1) D1 else some D1)
            = some E2 ∧ Rearr a i1 D1 E2 ∧ Srt E2 a i1 := by
          by_cases h2 : 2 ≤ i1 - a
          · rw [if_pos h2]
            obtain ⟨E2, e2, r2, s2⟩ := shiftLeft_spec D1 a (i1 - 1) (by omega) (by omega)
              (by
                intro ha
                rw [hn, hn, if_neg (by omega), if_neg (by omega), if_pos rfl]
                exact hpred ha _ ((mem_seg D a b hb _).2 ⟨i1, by omega, hi1b, rfl⟩))
              (pairwise_seg D1 a (i1 - 1) (by omega) hsrtD1)
            have e3 : i1 - 1 + 1 = i1 := by omega
            rw [e3] at r2 s2
            exact ⟨E2, e2, r2, Srt.of_pairwise_seg E2 a i1 (by rw [r2.length_eq]; omega) s2⟩
          · rw [if_neg h2]
            exact ⟨D1, rfl, Rearr.same _ _ _, fun p q h3 h4 h5 => by omega⟩
        obtain ⟨E2, e2, r2, s2⟩ := hleft
        rw [e2]
        simp only []
        have hlE2 : E2.length = D.length := by rw [r2.length_eq, hlD1]
        -- shifting the greater entry to the right
        have hright : ∃ E3, (if 2 ≤ b - i1 then shiftRight b (b - a + 1) (i1 + 1) E2 else some E2)
            = some E3 ∧ Rearr i1 b E2 E3 := by
          by_cases h2 : 2 ≤ b - i1
          · rw [if_pos h2]
            obtain ⟨E3, e3, r3⟩ := shiftRight_spec b (b - a + 1) (i1 + 1) E2 (by omega) (by omega)
              (by omega) (by omega)
            exact ⟨E3, e3, r3⟩
          · rw [if_neg h2]
            exact ⟨E2, rfl, Rearr.same _ _ _⟩
        obtain ⟨E3, e3, r3⟩ := hright
        rw [e3]
        simp only []
        have rall : Rearr a b D E3 :=
          r1.andThen ((r2.widen (Nat.le_refl _) (by omega)).andThen (r3.widen (by omega) (Nat.le_refl _)))
        obtain ⟨r, E, e4, r4, h4⟩ := partialInsertionSortLoop_spec a b s i1 E3 (by omega) q2
          (by rw [rall.length_eq]; exact hb) (hpred.of_Rearr rall (by omega) hb)
          (s2.of_Rearr_above r3 (Nat.le_refl _))
        exact ⟨r, E, e4, rall.andThen r4, h4⟩

/-- Go's `partialInsertionSort(data, a, b)` returns and rearranges `data[a:b]`
only; when it answers `true`, `data[a:b]` is sorted. -/
theorem partialInsertionSort_spec (D : List File) (a b : Nat) (hab : a < b) (hb : b ≤ D.length)
    (hpred : PredBound D a b) :
    ∃ r E, partialInsertionSort D a b = some (r, E) ∧ Rearr a b D E ∧
      (r = true → (seg E a b).Pairwise FileLe) := by
  obtain ⟨r, E, e, h1, h2⟩ := partialInsertionSortLoop_spec a b 5 (a + 1) D (by omega) (by omega)
    hb hpred (fun p q h1 h2 h3 => by omega)
  exact ⟨r, E, e, h1, fun hr => pairwise_seg E a b (by rw [h1.length_eq]; exact hb) (h2 hr)⟩

/-! ## Package sort: pdqsort sorts -/

theorem Rearr.forall_seg {D E : List File} {a b : Nat} (r : Rearr a b D E) (hab : a ≤ b)
    (hb : b ≤ D.length) (P : File → Prop) (h : ∀ x ∈ seg D a b, P x) : ∀ x ∈ seg E a b, P x :=
  fun x hx => h x ((r.seg_perm hab hb).subset hx)

theorem Rearr.seg_eq_left {D E : List File} {c d : Nat} (r : Rearr c d D E) (a b : Nat)
    (h : b ≤ c) :
    seg E a b = seg D a b :=
  seg_eq_of_nth D E a b r.length_eq (fun k _ hk => r.2 k (Or.inl (by omega)))

theorem Rearr.seg_eq_right {D E : List File} {c d : Nat} (r : Rearr c d D E) (a b : Nat)
    (h : d ≤ a) :
    seg E a b = seg D a b :=
  seg_eq_of_nth D E a b r.length_eq (fun k hk _ => r.2 k (Or.inr (by omega)))

theorem mem_seg_mono (D : List File) (a b c d : Nat) (hd : d ≤ D.length) (hca : c ≤ a)
    (hbd : b ≤ d) (x : File) (hx : x ∈ seg D a b) : x ∈ seg D c d := by
  obtain ⟨k, h1, h2, h3⟩ := (mem_seg D a b (by omega) x).1 hx
  exact (mem_seg D c d hd x).2 ⟨k, by omega, by omega, h3⟩

theorem PredBound.mono_right {D : List File} {a b m : Nat} (h : PredBound D a b)
    (hb : b ≤ D.length) (hm : m ≤ b) : PredBound D a m :=
  fun ha y hy => h ha y (mem_seg_mono D a m a b hb (Nat.le_refl _) hm y hy)

/-- A part is sorted when it is a sorted part, one entry, and a sorted part, the
entry being not before the first part and not after the second. -/
theorem sorted_of_parts (E : List File) (a mid b : Nat) (ham : a ≤ mid) (hmb : mid < b)
    (hb : b ≤ E.length)
    (hl : (seg E a mid).Pairwise FileLe) (hr : (seg E (mid + 1) b).Pairwise FileLe)
    (hlo : ∀ x ∈ seg E a mid, FileLe x (nth E mid))
    (hhi : ∀ y ∈ seg E (mid + 1) b, FileLe (nth E mid) y) :
    (seg E a b).Pairwise FileLe := by
  rw [seg_append E a mid b ham (by omega), seg_append E mid (mid + 1) b (by omega) (by omega),
    seg_single E mid (by omega)]
  rw [List.pairwise_append]
  refine ⟨hl, ?_, ?_⟩
  · simp only [List.singleton_append, List.pairwise_cons]
    exact ⟨hhi, hr⟩
  · intro x hx y hy
    simp only [List.singleton_append, List.mem_cons] at hy
    rcases hy with e | hy
    · rw [e]; exact hlo x hx
    · exact (hlo x hx).chain (hhi y hy)

/-- Go's `pdqsort(data, a, b, limit)`, with any values of its two flags: given
passes enough, and the entry before `data[a:b]` not after any of its entries,
it returns, rearranges `data[a:b]` only, and leaves it sorted. -/
theorem pdqsort_spec : ∀ (n : Nat) (D : List File) (a b limit : Nat) (wb wp : Bool),
    b - a < n → a ≤ b → b ≤ D.length → PredBound D a b →
    ∃ E, pdqsort n D a b limit wb wp = some E ∧ Rearr a b D E ∧ (seg E a b).Pairwise FileLe
  | 0, _, _, _, _, _, _, h, _, _, _ => absurd h (Nat.not_lt_zero _)
  | n + 1, D, a, b, limit, wb, wp, hn, hab, hb, hpred => by
    unfold pdqsort
    by_cases hshort : b - a ≤ 12
    · rw [if_pos hshort]
      exact insertionSort_spec D a b hab hb
    rw [if_neg hshort]
    by_cases hlim : limit = 0
    · rw [if_pos hlim]
      exact heapSort_spec D a b hab hb
    rw [if_neg hlim]
    -- breakPatterns
    have st1 : ∃ D1 limit1, (if wb = true then some (D, limit)
        else (breakPatterns D a b).map (fun d => (d, limit - 1))) = some (D1, limit1) ∧
        Rearr a b D D1 := by
      cases wb
      · obtain ⟨D1, e, r⟩ := breakPatterns_spec D a b hb
        exact ⟨D1, limit - 1, by simp [e], r⟩
      · exact ⟨D, limit, by simp, Rearr.same _ _ _⟩
    obtain ⟨D1, limit1, e1, r1⟩ := st1
    rw [e1]
    simp only []
    have hl1 : D1.length = D.length := r1.length_eq
    -- choosePivot
    obtain ⟨pivot, hint, e2, hp1, hp2⟩ := choosePivot_spec D1 a b (by omega) (by omega)
    rw [e2]
    simp only []
    -- reverseRange
    have st3 : ∃ D2 pivot1 hint1, (if hint = sortedHint.decreasingHint then
        (reverseRange D1 a b).map (fun d => (d, (b - 1) - (pivot - a), sortedHint.increasingHint))
        else some (D1, pivot, hint)) = some (D2, pivot1, hint1) ∧ Rearr a b D1 D2 ∧
        a ≤ pivot1 ∧ pivot1 < b := by
      by_cases hh : hint = sortedHint.decreasingHint
      · obtain ⟨D2, e, r⟩ := reverseRange_spec D1 a b (by omega)
        exact ⟨D2, _, _, by rw [if_pos hh, e]; rfl, r, by omega, by omega⟩
      · exact ⟨D1, pivot, hint, by rw [if_neg hh], Rearr.same _ _ _, hp1, hp2⟩
    obtain ⟨D2, pivot1, hint1, e3, r2, hq1, hq2⟩ := st3
    rw [e3]
    simp only []
    have r12 : Rearr a b D D2 := r1.andThen r2
    have hl2 : D2.length = D.length := r12.length_eq
    -- partialInsertionSort
    have st4 : ∃ r D3, (if (wb && wp && decide (hint1 = sortedHint.increasingHint)) = true then
        partialInsertionSort D2 a b else some (false, D2)) = some (r, D3) ∧ Rearr a b D2 D3 ∧
        (r = true → (seg D3 a b).Pairwise FileLe) := by
      by_cases hc : (wb && wp && decide (hint1 = sortedHint.increasingHint)) = true
      · rw [if_pos hc]
        exact partialInsertionSort_spec D2 a b (by omega) (by omega)
          (hpred.of_Rearr r12 hab hb)
      · rw [if_neg hc]
        exact ⟨false, D2, rfl, Rearr.same _ _ _, fun h => Bool.noConfusion h⟩
    obtain ⟨r, D3, e4, r3, hsorted⟩ := st4
    rw [e4]
    have r13 : Rearr a b D D3 := r12.andThen r3
    have hl3 : D3.length = D.length := r13.length_eq
    have hpred3 : PredBound D3 a b := hpred.of_Rearr r13 hab hb
    cases r
    swap
    · simp only []
      exact ⟨D3, rfl, r13, hsorted rfl⟩
    simp only []
    -- the entry before the part against the pivot
    have st5 : ∃ eq : Bool, (if 0 < a then (ByFileName.Less D3 (a - 1) pivot1).map (fun l => !l)
        else some false) = some eq ∧
        (eq = true → 0 < a ∧ strLess (nth D3 (a - 1)).Name (nth D3 pivot1).Name = false) := by
      by_cases ha : 0 < a
      · rw [if_pos ha, Less_nth D3 (a - 1) pivot1 (by omega) (by omega)]
        refine ⟨_, rfl, fun h => ⟨ha, ?_⟩⟩
        simpa using h
      · rw [if_neg ha]
        exact ⟨false, rfl, fun h => Bool.noConfusion h⟩
    obtain ⟨eq, e5, heq⟩ := st5
    rw [e5]
    cases eq
    · -- partition
      simp only []
      obtain ⟨mid, flag, D4, e6, r4, hm1, hm2, hlo, hhi⟩ :=
        partition_spec D3 a b pivot1 hq1 hq2 (by omega)
      rw [e6]
      simp only []
      have r14 : Rearr a b D D4 := r13.andThen r4
      have hl4 : D4.length = D.length := r14.length_eq
      have hpred4 : PredBound D4 a b := hpred.of_Rearr r14 hab hb
      have hleft4 : ∀ x ∈ seg D4 a mid, FileLe x (nth D4 mid) := by
        intro x hx
        obtain ⟨k, h1, h2, h3⟩ := (mem_seg D4 a mid (by omega) x).1 hx
        rw [← h3]
        exact FileLe.of_less (hlo k h1 h2)
      have hright4 : ∀ y ∈ seg D4 (mid + 1) b, FileLe (nth D4 mid) y := by
        intro y hy
        obtain ⟨k, h1, h2, h3⟩ := (mem_seg D4 (mid + 1) b (by omega) y).1 hy
        rw [← h3]
        exact hhi k (by omega) h2
      have predL : PredBound D4 a mid := hpred4.mono_right (by omega) (by omega)
      have predR : PredBound D4 (mid + 1) b := by
        intro _ y hy
        simp only [Nat.add_sub_cancel]
        exact hright4 y hy
      by_cases hside : mid - a < b - mid
      · rw [if_pos hside]
        obtain ⟨E1, f1, s1, t1⟩ := pdqsort_spec n D4 a mid limit1 true true (by omega) hm1
          (by omega) predL
        rw [f1]
        simp only []
        have hlE1 : E1.length = D.length := by rw [s1.length_eq, hl4]
        have predR1 : PredBound E1 (mid + 1) b := by
          intro _ y hy
          simp only [Nat.add_sub_cancel]
          rw [s1.2 mid (Or.inr (Nat.le_refl _))]
          rw [s1.seg_eq_right (mid + 1) b (by omega)] at hy
          exact hright4 y hy
        obtain ⟨E2, f2, s2, t2⟩ := pdqsort_spec n E1 (mid + 1) b limit1
          (decide ((b - a) / 8 ≤ mid - a)) flag (by omega) (by omega) (by omega) predR1
        refine ⟨E2, f2, r14.andThen ((s1.widen (Nat.le_refl _) (by omega)).andThen
          (s2.widen (by omega) (Nat.le_refl _))), ?_⟩
        have hmidE : nth E2 mid = nth D4 mid := by
          rw [s2.2 mid (Or.inl (by omega)), s1.2 mid (Or.inr (Nat.le_refl _))]
        refine sorted_of_parts E2 a mid b hm1 hm2 (by rw [s2.length_eq]; omega) ?_ t2 ?_ ?_
        · rw [s2.seg_eq_left a mid (by omega)]; exact t1
        · rw [s2.seg_eq_left a mid (by omega), hmidE]
          exact s1.forall_seg hm1 (by omega) _ hleft4
        · rw [hmidE]
          have := s2.forall_seg (by omega) (by omega) (fun y => FileLe (nth D4 mid) y)
          apply this
          rw [s1.seg_eq_right (mid + 1) b (by omega)]
          exact hright4
      · rw [if_neg hside]
        obtain ⟨E1, f1, s1, t1⟩ := pdqsort_spec n D4 (mid + 1) b limit1 true true (by omega)
          (by omega) (by omega) predR
        rw [f1]
        simp only []
        have hlE1 : E1.length = D.length := by rw [s1.length_eq, hl4]
        have predL1 : PredBound E1 a mid := by
          intro ha y hy
          rw [s1.2 (a - 1) (Or.inl (by omega))]
          rw [s1.seg_eq_left a mid (by omega)] at hy
          exact predL ha y hy
        obtain ⟨E2, f2, s2, t2⟩ := pdqsort_spec n E1 a mid limit1
          (decide ((b - a) / 8 ≤ b - mid)) flag (by omega) hm1 (by omega) predL1
        refine ⟨E2, f2, r14.andThen ((s1.widen (by omega) (Nat.le_refl _)).andThen
          (s2.widen (Nat.le_refl _) (by omega))), ?_⟩
        have hmidE : nth E2 mid = nth D4 mid := by
          rw [s2.2 mid (Or.inr (Nat.le_refl _)), s1.2 mid (Or.inl (by omega))]
        refine sorted_of_parts E2 a mid b hm1 hm2 (by rw [s2.length_eq]; omega) t2 ?_ ?_ ?_
        · rw [s2.seg_eq_right (mid + 1) b (by omega)]; exact t1
        · rw [hmidE]
          have := s2.forall_seg hm1 (by omega) (fun x => FileLe x (nth D4 mid))
          apply this
          rw [s1.seg_eq_left a mid (by omega)]
          exact hleft4
        · rw [s2.seg_eq_right (mid + 1) b (by omega), hmidE]
          exact s1.forall_seg (by omega) (by omega) _ hright4
    · -- partitionEqual
      simp only []
      obtain ⟨ha, hle⟩ := heq rfl
      obtain ⟨mid, D4, e6, r4, hm1, hm2, hpa, hlo, hhi⟩ :=
        partitionEqual_spec D3 a b pivot1 hq1 hq2 (by omega)
      rw [e6]
      simp only []
      have r14 : Rearr a b D D4 := r13.andThen r4
      have hl4 : D4.length = D.length := r14.length_eq
      have hpred4 : PredBound D4 a b := hpred.of_Rearr r14 hab hb
      have hpredeq : nth D4 (a - 1) = nth D3 (a - 1) := r4.2 (a - 1) (Or.inl (by omega))
      -- every entry before mid is level with the pivot
      have hlevel : ∀ k, a ≤ k → k < mid →
          FileLe (nth D4 k) (nth D3 pivot1) ∧ FileLe (nth D3 pivot1) (nth D4 k) := by
        intro k h1 h2
        refine ⟨hlo k h1 h2, ?_⟩
        have h3 : FileLe (nth D4 (a - 1)) (nth D4 k) :=
          hpred4 ha _ ((mem_seg D4 a b (by omega) _).2 ⟨k, h1, by omega, rfl⟩)
        rw [hpredeq] at h3
        exact FileLe.chain hle h3
      have predM : PredBound D4 mid b := by
        intro _ y hy
        obtain ⟨k, h1, h2, h3⟩ := (mem_seg D4 mid b (by omega) y).1 hy
        rw [← h3]
        exact (hlevel (mid - 1) (by omega) (by omega)).1.chain (FileLe.of_less (hhi k h1 h2))
      obtain ⟨E, f1, s1, t1⟩ := pdqsort_spec n D4 mid b limit1 wb wp (by omega) hm2 (by omega)
        predM
      refine ⟨E, f1, r14.andThen (s1.widen (by omega) (Nat.le_refl _)), ?_⟩
      rw [seg_append E a mid b (by omega) hm2, List.pairwise_append]
      refine ⟨?_, t1, ?_⟩
      · rw [s1.seg_eq_left a mid (Nat.le_refl _)]
        refine pairwise_seg D4 a mid (by omega) ?_
        intro i j h1 h2 h3
        exact (hlevel i h1 (by omega)).1.chain (hlevel j (by omega) h3).2
      · intro x hx y hy
        rw [s1.seg_eq_left a mid (Nat.le_refl _)] at hx
        obtain ⟨k, h1, h2, h3⟩ := (mem_seg D4 a mid (by omega) x).1 hx
        have hy2 : FileLe (nth D3 pivot1) y := by
          have := s1.forall_seg hm2 (by omega) (fun y => FileLe (nth D3 pivot1) y)
          apply this _ y hy
          intro z hz
          obtain ⟨k2, g1, g2, g3⟩ := (mem_seg D4 mid b (by omega) z).1 hz
          rw [← g3]
          exact FileLe.of_less (hhi k2 g1 g2)
        rw [← h3]
        exact (hlevel k h1 h2).1.chain hy2

/-! ## Package sort: Sort -/

/-- The contract of `sort.Sort` on `ByFileName`: it returns (no index panic, passes
enough), the result is a rearrangement of the input, and it is in
non-decreasing name order. -/
theorem sortSort_spec (data : List File) :
    ∃ out, sortSort data = some out ∧ out.Perm data ∧ SortedByName out := by
  unfold sortSort ByFileName.Len
  by_cases h : data.length ≤ 1
  · rw [if_pos h]
    refine ⟨data, rfl, List.Perm.refl _, ?_⟩
    unfold SortedByName
    match data, h with
    | [], _ => exact List.Pairwise.nil
    | [x], _ => exact List.pairwise_singleton _ _
  · rw [if_neg h]
    obtain ⟨E, e, r, s⟩ := pdqsort_spec (data.length + 1) data 0 data.length
      (bitsLen data.length) true true (by omega) (Nat.zero_le _) (Nat.le_refl _)
      (fun h0 => absurd h0 (Nat.lt_irrefl 0))
    refine ⟨E, e, r.1, ?_⟩
    rw [← r.length_eq, seg_zero_length] at s
    exact s.imp (fun {u v} huv => (strLess_false_iff u.Name v.Name).1 huv)

set_option maxRecDepth 1000000 in
/-- On thirteen entries `sort.Sort` goes through `choosePivot` (index 6, no swap),
`partialInsertionSort` (gives up), `partition` (the new pivot is at 7) and two
insertion sorts; the later `f.c` ends before the earlier one. -/
theorem sortSort_thirteenFiles :
    choosePivot thirteenFiles 0 13 = some (6, sortedHint.increasingHint) ∧
    (partialInsertionSort thirteenFiles 0 13).map (fun r => r.1) = some false ∧
    (partition thirteenFiles 0 13 6).map (fun r => (r.1, r.2.1)) = some (7, false) ∧
    sortSort thirteenFiles =
      some [⟨ascii "a.c", none⟩, ⟨ascii "b.c", none⟩, ⟨ascii "c.c", none⟩, ⟨ascii "d.c", none⟩,
        ⟨ascii "e.c", none⟩, ⟨ascii "f.c", some ⟨[ascii "Debug"]⟩⟩, ⟨ascii "f.c", none⟩,
        ⟨ascii "g.c", none⟩, ⟨ascii "h.c", none⟩, ⟨ascii "i.c", none⟩, ⟨ascii "j.c", none⟩,
        ⟨ascii "k.c", none⟩, ⟨ascii "l.c", none⟩] := by
  refine ⟨by decide, by decide, by decide, by decide⟩

/-! ## strings.Split -/

namespace strings

theorem Count_of_not_mem (sep : Byte) : ∀ a : GoString, sep ∉ a → Count a sep = 0
  | [], _ => rfl
  | b :: a, h => by
    have hb : b ≠ sep := fun e => h (by simp [e])
    have ha : sep ∉ a := fun m => h (List.mem_cons_of_mem _ m)
    simp [Count, hb, Count_of_not_mem sep a ha]

theorem IndexByte_of_not_mem (sep : Byte) : ∀ a : GoString, sep ∉ a → IndexByte a sep = none
  | [], _ => rfl
  | b :: a, h => by
    have hb : b ≠ sep := fun e => h (by simp [e])
    have ha : sep ∉ a := fun m => h (List.mem_cons_of_mem _ m)
    simp [IndexByte, hb, IndexByte_of_not_mem sep a ha]

theorem Count_append (sep : Byte) (b : GoString) : ∀ a : GoString, sep ∉ a →
    Count (a ++ sep :: b) sep = Count b sep + 1
  | [], _ => by simp [Count]
  | c :: a, h => by
    have hc : c ≠ sep := fun e => h (by simp [e])
    have ha : sep ∉ a := fun m => h (List.mem_cons_of_mem _ m)
    simp [Count, hc, Count_append sep b a ha]

theorem IndexByte_append (sep : Byte) (b : GoString) : ∀ a : GoString, sep ∉ a →
    IndexByte (a ++ sep :: b) sep = some a.length
  | [], _ => by simp [IndexByte]
  | c :: a, h => by
    have hc : c ≠ sep := fun e => h (by simp [e])
    have ha : sep ∉ a := fun m => h (List.mem_cons_of_mem _ m)
    simp [IndexByte, hc, IndexByte_append sep b a ha]

/-- A string without the separator is its own single segment. -/
theorem Split_of_not_mem (sep : Byte) (a : GoString) (h : sep ∉ a) : Split a sep = [a] := by
  simp [Split, Count_of_not_mem sep a h, genSplitLoop]

/-- Splitting cuts at the first separator and goes on with the rest. -/
theorem Split_append (sep : Byte) (a b : GoString) (h : sep ∉ a) :
    Split (a ++ sep :: b) sep = a :: Split b sep := by
  simp [Split, Count_append sep b a h, genSplitLoop, IndexByte_append sep b a h]

/-- Every string either has no separator or is cut by a first one. -/
theorem first_separator (sep : Byte) : ∀ s : GoString,
    sep ∉ s ∨ ∃ a b, s = a ++ sep :: b ∧ sep ∉ a
  | [] => Or.inl (by simp)
  | c :: s => by
    by_cases hc : c = sep
    · exact Or.inr ⟨[], s, by simp [hc], by simp⟩
    · rcases first_separator sep s with h | ⟨a, b, e, h⟩
      · exact Or.inl (by
          intro m
          rcases List.mem_cons.1 m with e | m
          · exact hc e.symm
          · exact h m)
      · refine Or.inr ⟨c :: a, b, by simp [e], ?_⟩
        intro m
        rcases List.mem_cons.1 m with e | m
        · exact hc e.symm
        · exact h m

/-- What splitting means: there is at least one segment, no segment holds the
separator, and the segments joined by the separator give the string back. -/
theorem Split_spec (sep : Byte) : ∀ (n : Nat) (s : GoString), s.length < n →
    Split s sep ≠ [] ∧ (∀ w ∈ Split s sep, sep ∉ w) ∧
      List.intercalate [sep] (Split s sep) = s
  | 0, _, h => absurd h (Nat.not_lt_zero _)
  | n + 1, s, h => by
    rcases first_separator sep s with hs | ⟨a, b, e, ha⟩
    · rw [Split_of_not_mem sep s hs]
      refine ⟨by simp, ?_, by simp [List.intercalate]⟩
      intro w hw
      rw [List.mem_singleton.1 hw]
      exact hs
    · subst e
      have hb : b.length < n := by
        simp only [List.length_append, List.length_cons] at h
        omega
      obtain ⟨h1, h2, h3⟩ := Split_spec sep n b hb
      rw [Split_append sep a b ha]
      refine ⟨by simp, ?_, ?_⟩
      · intro w hw
        rcases List.mem_cons.1 hw with e | hw
        · rw [e]; exact ha
        · exact h2 w hw
      · obtain ⟨w, ws, e⟩ := List.exists_cons_of_ne_nil h1
        rw [e] at h3 ⊢
        simp only [List.intercalate, List.intersperse, List.flatten_cons] at h3 ⊢
        rw [h3]
        simp

/-- The last segment of a string cut at a first separator is the last segment
of what follows that separator. -/
theorem getLast?_Split_append (sep : Byte) (a b : GoString) (h : sep ∉ a) :
    (Split (a ++ sep :: b) sep).getLast? = (Split b sep).getLast? := by
  rw [Split_append sep a b h]
  obtain ⟨w, ws, e⟩ := List.exists_cons_of_ne_nil (Split_spec sep _ b (Nat.lt_succ_self _)).1
  rw [e]
  simp [List.getLast?_cons_cons]

end strings

/-- FileName is the last segment of the split, and the index is in range. -/
theorem FileName_eq_getLast? (f : File) :
    f.FileName = (strings.Split f.Name backslash).getLast? := by
  simp [File.FileName, List.getLast?_eq_getElem?]

/-! ## InsertFile and runs of InsertFile -/

/-- InsertFile returns, touches only `Files`, and leaves there a sorted
rearrangement of the old files with the new entry appended. -/
theorem InsertFile_spec (ewp : Ewp) (f : File) :
    ∃ fs, ewp.InsertFile f = some { ewp with Files := fs } ∧
      fs.Perm (ewp.Files ++ [f]) ∧ SortedByName fs := by
  obtain ⟨out, h, hp, hs⟩ := sortSort_spec (ewp.Files ++ [f])
  exact ⟨out, by simp [Ewp.InsertFile, h], hp, hs⟩

/-- A run of InsertFile calls returns and leaves a rearrangement of the old files
and the inserted entries, sorted as soon as one call was made (or the files
were sorted to begin with). -/
theorem insertAll_spec : ∀ (l : List File) (ewp : Ewp),
    ∃ fs, insertAll ewp l = some { ewp with Files := fs } ∧ fs.Perm (ewp.Files ++ l) ∧
      ((l ≠ [] ∨ SortedByName ewp.Files) → SortedByName fs)
  | [], ewp => ⟨ewp.Files, by simp [insertAll], by simp, fun h => h.elim (fun h => absurd rfl h) id⟩
  | f :: l, ewp => by
    obtain ⟨fs1, h1, p1, s1⟩ := InsertFile_spec ewp f
    obtain ⟨fs2, h2, p2, s2⟩ := insertAll_spec l { ewp with Files := fs1 }
    refine ⟨fs2, ?_, ?_, fun _ => s2 (Or.inr s1)⟩
    · simp only [insertAll, h1, h2]
    · refine p2.trans ?_
      simpa using p1.append_right l

theorem strLe_antisymm (s t : GoString) (h1 : strLe s t) (h2 : strLe t s) : s = t := by
  rcases h1 with e | l1
  · exact e
  · rcases h2 with e | l2
    · exact e.symm
    · have := strLess_asymm s t l1
      simp [l2] at this

/-- Two sorted arrangements of the same entries show the same names in the same
order, whatever the order of entries with equal names. -/
theorem names_eq_of_perm_of_sorted (fs1 fs2 : List File) (hp : fs1.Perm fs2)
    (h1 : SortedByName fs1) (h2 : SortedByName fs2) : names fs1 = names fs2 := by
  haveI : IsAntisymm GoString strLe := ⟨strLe_antisymm⟩
  refine List.eq_of_perm_of_sorted (r := strLe) (hp.map _) ?_ ?_
  · exact List.pairwise_map.2 h1
  · exact List.pairwise_map.2 h2

/-- C1: after InsertFile(f), whatever the document and whether or not its files
were sorted, the call returns and Files is in non-decreasing order of the full
Name under byte-wise comparison; hence every document reached from an empty
file list by a run of InsertFile calls has sorted Files. -/
theorem InsertFile_sorted :
    (∀ (ewp : Ewp) (f : File), ∃ ewp1, ewp.InsertFile f = some ewp1 ∧ SortedByName ewp1.Files) ∧
    (∀ (x : XmlName) (v : Int) (c g : List RawBlock) (fs : List File),
      ∃ ewp1, insertAll ⟨x, v, c, g, []⟩ fs = some ewp1 ∧ SortedByName ewp1.Files) := by
  constructor
  · intro ewp f
    obtain ⟨fs, h, _, hs⟩ := InsertFile_spec ewp f
    exact ⟨_, h, hs⟩
  · intro x v c g fs
    obtain ⟨out, h, _, hs⟩ := insertAll_spec fs ⟨x, v, c, g, []⟩
    exact ⟨_, h, hs (Or.inr List.Pairwise.nil)⟩

/-- C2: after InsertFile(f) on a document with n files, Files has length n+1 and
is a permutation of the old Files with f appended: every entry, exclusions
included, occurs as often as before, f once more; so the entries named like f
are one more than before and an older entry of that name is still there. -/
theorem InsertFile_perm (ewp : Ewp) (f : File) :
    ∃ ewp1, ewp.InsertFile f = some ewp1 ∧
      ewp1.Files.length = ewp.Files.length + 1 ∧
      ewp1.Files.Perm (ewp.Files ++ [f]) ∧
      (∀ g : File, ewp1.Files.count g = ewp.Files.count g + (if g = f then 1 else 0)) ∧
      ewp1.Files.countP (fun g => decide (g.Name = f.Name))
        = ewp.Files.countP (fun g => decide (g.Name = f.Name)) + 1 := by
  obtain ⟨fs, h, hp, _⟩ := InsertFile_spec ewp f
  refine ⟨_, h, ?_, hp, ?_, ?_⟩
  · simpa using hp.length_eq
  · intro g
    have := hp.count_eq g
    simp only [this, List.count_append, List.count_singleton]
    by_cases e : g = f
    · simp [e]
    · have e2 : ¬ f = g := fun h => e h.symm
      simp [e, e2]
  · have := hp.countP_eq (fun g => decide (g.Name = f.Name))
    simp only [this, List.countP_append]
    simp [List.countP_cons]

/-! ## Contains -/

theorem containsLoop_iff (f : File) : ∀ fs : List File,
    containsLoop f fs = true ↔ ∃ file ∈ fs, file.Name = f.Name
  | [] => by simp [containsLoop]
  | file :: rest => by
    by_cases h : file.Name = f.Name
    · simp [containsLoop, h]
    · simp [containsLoop, h, containsLoop_iff f rest]

/-- C3: Contains(f) is true exactly when some entry of Files has a Name equal to
f.Name; the answer is a function of f.Name and of the names in Files alone:
changing the exclusions of the query, or of the stored entries, changes
nothing. -/
theorem Contains_iff (ewp : Ewp) (f : File) :
    (ewp.Contains f = true ↔ ∃ file ∈ ewp.Files, file.Name = f.Name) ∧
    ewp.Contains f = decide (f.Name ∈ names ewp.Files) ∧
    (∀ e : Option Excluded, ewp.Contains { f with Exclusions := e } = ewp.Contains f) ∧
    (∀ e : File → Option Excluded,
      Ewp.Contains { ewp with Files := ewp.Files.map (fun x => { x with Exclusions := e x }) } f
        = ewp.Contains f) := by
  have key : ∀ (fs : List File) (g : File),
      containsLoop g fs = decide (g.Name ∈ names fs) := by
    intro fs g
    rw [Bool.eq_iff_iff, containsLoop_iff]
    simp [names, eq_comm]
  refine ⟨containsLoop_iff f ewp.Files, key _ _, ?_, ?_⟩
  · intro e
    simp only [Ewp.Contains, key]
  · intro e
    simp only [Ewp.Contains, key, names, List.map_map]
    rfl

/-! ## MakeFile -/

/-- C4: MakeFile(name, exclusions...) returns an entry whose Name is the literal
`$PROJ_DIR$`, one backslash, then name as given, for every name and every
exclusion list; so MakeFile("abc.cpp", "configA", "configB") is named
`$PROJ_DIR$\abc.cpp`. -/
theorem MakeFile_Name :
    (∀ (name : GoString) (exclusions : Option (List GoString)),
      (MakeFile name exclusions).Name
        = [36, 80, 82, 79, 74, 95, 68, 73, 82, 36] ++ [92] ++ name) ∧
    ascii "$PROJ_DIR$" = [36, 80, 82, 79, 74, 95, 68, 73, 82, 36] ∧
    (MakeFile (ascii "abc.cpp") (some [ascii "configA", ascii "configB"])).Name
      = ascii "$PROJ_DIR$\\abc.cpp" := by
  refine ⟨fun name exclusions => ?_, by decide, by decide⟩
  show ProjectDir ++ ascii "\\" ++ name = _
  have h1 : ProjectDir = [36, 80, 82, 79, 74, 95, 68, 73, 82, 36] := by decide
  have h2 : ascii "\\" = [92] := by decide
  rw [h1, h2]

/-- C5, as the code has it: Exclusions is absent exactly when the variadic slice
is nil, as in a call without exclusion arguments; a slice that is not nil comes
back present, holding the given names in the given order, so a present but
empty list is built exactly from a slice that is empty and not nil. -/
theorem MakeFile_Exclusions (name : GoString) :
    (MakeFile name none).Exclusions = none ∧
    (∀ given : List GoString, (MakeFile name (some given)).Exclusions = some ⟨given⟩) ∧
    (∀ exclusions : Option (List GoString),
      (MakeFile name exclusions).Exclusions = none ↔ exclusions = none) ∧
    (∀ exclusions : Option (List GoString),
      (MakeFile name exclusions).Exclusions = some ⟨[]⟩ ↔ exclusions = some []) := by
  refine ⟨rfl, fun _ => rfl, ?_, ?_⟩
  · intro exclusions
    cases exclusions <;> simp [MakeFile]
  · intro exclusions
    cases exclusions <;> simp [MakeFile]

/-- C5 fails as stated: MakeFile("abc.cpp", []string{}...) is given no exclusion
name and returns an entry whose Exclusions is present and empty. -/
theorem MakeFile_present_but_empty :
    (MakeFile (ascii "abc.cpp") (some [])).Exclusions ≠ none ∧
    (MakeFile (ascii "abc.cpp") (some [])).Exclusions = some ⟨[]⟩ := by
  decide

/-! ## FileName -/

/-- C6: FileName returns the final segment of Name split on the backslash, the
segments being the pieces without backslash that, joined by backslashes, make up
Name; a Name without backslash comes back unchanged, and
`$PROJ_DIR$\gmock\gmock.h` gives `gmock.h`. -/
theorem FileName_last_segment :
    (∀ f : File, ∃ segs last,
      strings.Split f.Name backslash = segs ++ [last] ∧
      (∀ w ∈ segs ++ [last], backslash ∉ w) ∧
      List.intercalate [backslash] (segs ++ [last]) = f.Name ∧
      f.FileName = some last) ∧
    (∀ f : File, backslash ∉ f.Name → f.FileName = some f.Name) ∧
    File.FileName ⟨ascii "$PROJ_DIR$\\gmock\\gmock.h", none⟩ = some (ascii "gmock.h") := by
  refine ⟨fun f => ?_, fun f h => ?_, by decide⟩
  · obtain ⟨h1, h2, h3⟩ := strings.Split_spec backslash _ f.Name (Nat.lt_succ_self _)
    refine ⟨(strings.Split f.Name backslash).dropLast,
      (strings.Split f.Name backslash).getLast h1, ?_, ?_, ?_, ?_⟩
    · exact (List.dropLast_append_getLast h1).symm
    · rw [List.dropLast_append_getLast h1]; exact h2
    · rw [List.dropLast_append_getLast h1]; exact h3
    · rw [FileName_eq_getLast?, List.getLast?_eq_getLast _ h1]
  · rw [FileName_eq_getLast?, strings.Split_of_not_mem backslash f.Name h]
    rfl

/-- A use of C6 on a name without backslash. -/
theorem FileName_last_segment_witness :
    File.FileName ⟨ascii "abc.cpp", none⟩ = some (ascii "abc.cpp") :=
  FileName_last_segment.2.1 ⟨ascii "abc.cpp", none⟩ (by decide)

/-- C7: FileName(MakeFile(name, exclusions...)) is the final backslash-separated
segment of name, and name itself when name holds no backslash, as for
"abc.cpp". -/
theorem FileName_MakeFile :
    (∀ (name : GoString) (exclusions : Option (List GoString)), ∃ last,
      (strings.Split name backslash).getLast? = some last ∧
      (MakeFile name exclusions).FileName = some last) ∧
    (∀ (name : GoString) (exclusions : Option (List GoString)),
      backslash ∉ name → (MakeFile name exclusions).FileName = some name) ∧
    (MakeFile (ascii "abc.cpp") none).FileName = some (ascii "abc.cpp") := by
  have key : ∀ (name : GoString) (exclusions : Option (List GoString)),
      (MakeFile name exclusions).FileName = (strings.Split name backslash).getLast? := by
    intro name exclusions
    rw [FileName_eq_getLast?]
    show (strings.Split (ProjectDir ++ ascii "\\" ++ name) backslash).getLast? = _
    have h2 : ProjectDir ++ ascii "\\" ++ name = ProjectDir ++ backslash :: name := by
      have : ascii "\\" = [backslash] := by decide
      rw [this]; simp
    rw [h2]
    exact strings.getLast?_Split_append backslash ProjectDir name (by decide)
  refine ⟨fun name exclusions => ?_, fun name exclusions h => ?_, by decide⟩
  · obtain ⟨h1, _, _⟩ := strings.Split_spec backslash _ name (Nat.lt_succ_self _)
    exact ⟨_, List.getLast?_eq_getLast _ h1, by rw [key, List.getLast?_eq_getLast _ h1]⟩
  · rw [key, strings.Split_of_not_mem backslash name h]
    rfl

/-- A use of C7 on a name without backslash and with exclusions. -/
theorem FileName_MakeFile_witness :
    (MakeFile (ascii "math.h") (some [ascii "MyConfig"])).FileName = some (ascii "math.h") :=
  FileName_MakeFile.2.1 (ascii "math.h") (some [ascii "MyConfig"]) (by decide)

/-! ## The order of ByFileName -/

theorem Less_eq (fs : List File) (i j : Nat) (hi : i < fs.length) (hj : j < fs.length) :
    ByFileName.Less fs i j = some (strLess fs[i].Name fs[j].Name) := by
  simp only [ByFileName.Less, List.getElem?_eq_getElem hi, List.getElem?_eq_getElem hj]

set_option maxRecDepth 100000 in
/-- C8: Less(i, j) holds exactly when Files[i].Name is byte-wise strictly less
than Files[j].Name, the full path and not FileName(): of two entries with one
base name the one in the smaller directory comes first, and an entry with the
larger base name comes first when its directory is smaller; sorting the six
test entries gives boost.cpp, boost.h, gmock\gmock.h, gtest\gtest.h, main.cpp,
math.h, as does every sorted arrangement of them. -/
theorem Less_by_full_name :
    (∀ (fs : List File) (i j : Nat) (hi : i < fs.length) (hj : j < fs.length),
      ByFileName.Less fs i j = some (strLess fs[i].Name fs[j].Name) ∧
      (ByFileName.Less fs i j = some true ↔ List.Lex (· < ·) fs[i].Name fs[j].Name)) ∧
    (ByFileName.Less [MakeFile (ascii "gtest\\util.h") none,
        MakeFile (ascii "gmock\\util.h") none] 1 0 = some true ∧
      ByFileName.Less [MakeFile (ascii "gmock\\z.h") none,
        MakeFile (ascii "gtest\\a.h") none] 0 1 = some true ∧
      sortSort [MakeFile (ascii "gtest\\util.h") none, MakeFile (ascii "gmock\\util.h") none]
        = some [MakeFile (ascii "gmock\\util.h") none, MakeFile (ascii "gtest\\util.h") none]) ∧
    sortSort testFiles
      = some [MakeFile (ascii "boost.cpp") none, MakeFile (ascii "boost.h") none,
          MakeFile (ascii "gmock\\gmock.h") none, MakeFile (ascii "gtest\\gtest.h") none,
          MakeFile (ascii "main.cpp") none, MakeFile (ascii "math.h") none] ∧
    (∀ out : List File, out.Perm testFiles → SortedByName out →
      names out = [ascii "$PROJ_DIR$\\boost.cpp", ascii "$PROJ_DIR$\\boost.h",
        ascii "$PROJ_DIR$\\gmock\\gmock.h", ascii "$PROJ_DIR$\\gtest\\gtest.h",
        ascii "$PROJ_DIR$\\main.cpp", ascii "$PROJ_DIR$\\math.h"]) := by
  refine ⟨fun fs i j hi hj => ?_, by decide, by decide, fun out hp hs => ?_⟩
  · rw [Less_eq fs i j hi hj]
    refine ⟨rfl, ?_⟩
    rw [← strLess_iff_lex]
    simp
  · obtain ⟨srt, h1, h2, h3⟩ := sortSort_spec testFiles
    rw [names_eq_of_perm_of_sorted out srt (hp.trans h2.symm) hs h3]
    have e : sortSort testFiles = some [MakeFile (ascii "boost.cpp") none,
        MakeFile (ascii "boost.h") none, MakeFile (ascii "gmock\\gmock.h") none,
        MakeFile (ascii "gtest\\gtest.h") none, MakeFile (ascii "main.cpp") none,
        MakeFile (ascii "math.h") none] := by decide
    rw [e] at h1
    rw [← Option.some.inj h1]
    decide

/-- A use of C8 on the first two test entries: main.cpp is less than math.h. -/
theorem Less_by_full_name_witness :
    ByFileName.Less testFiles 0 1 = some true :=
  (Less_by_full_name.1 testFiles 0 1 (by decide) (by decide)).1.trans (by decide)

/-! ## Insertion order -/

/-- C9: inserting the entries of a list one by one with InsertFile, in any two
orders, returns documents whose Files show the same sequence of Names, whatever
the starting document; once an entry has been inserted that sequence is ordered
by full-path byte-wise comparison (as it is with nothing inserted into Files
already ordered): the resulting order does not depend on the insertion order. -/
theorem insertAll_order_independent (ewp : Ewp) (l1 l2 : List File) (hp : l1.Perm l2) :
    ∃ e1 e2, insertAll ewp l1 = some e1 ∧ insertAll ewp l2 = some e2 ∧
      names e1.Files = names e2.Files ∧
      ((l1 ≠ [] ∨ SortedByName ewp.Files) → SortedByName e1.Files ∧ SortedByName e2.Files) := by
  obtain ⟨fs1, h1, p1, s1⟩ := insertAll_spec l1 ewp
  obtain ⟨fs2, h2, p2, s2⟩ := insertAll_spec l2 ewp
  refine ⟨_, _, h1, h2, ?_, ?_⟩
  · show names fs1 = names fs2
    cases l1 with
    | nil =>
      have e2 : l2 = [] := List.perm_nil.1 hp.symm
      subst e2
      simp only [insertAll, Option.some.injEq] at h1 h2
      have e1 : fs1 = ewp.Files := congrArg Ewp.Files h1.symm
      have e2 : fs2 = ewp.Files := congrArg Ewp.Files h2.symm
      rw [e1, e2]
    | cons f l =>
      have n2 : l2 ≠ [] := by
        intro e
        rw [e] at hp
        exact absurd (List.perm_nil.1 hp) (by simp)
      refine names_eq_of_perm_of_sorted fs1 fs2 ?_ (s1 (Or.inl (by simp))) (s2 (Or.inl n2))
      exact p1.trans ((hp.append_left ewp.Files).trans p2.symm)
  · intro h
    refine ⟨s1 h, s2 ?_⟩
    rcases h with h | h
    · left
      intro e
      rw [e] at hp
      exact h (List.perm_nil.1 hp)
    · exact Or.inr h

/-- A use of C9: foo.cpp and bar.cpp inserted into the six test entries, in both
orders. -/
theorem insertAll_order_independent_witness :
    ∃ e1 e2,
      insertAll (ewpOf testFiles)
        [MakeFile (ascii "foo.cpp") none, MakeFile (ascii "bar.cpp") none] = some e1 ∧
      insertAll (ewpOf testFiles)
        [MakeFile (ascii "bar.cpp") none, MakeFile (ascii "foo.cpp") none] = some e2 ∧
      names e1.Files = names e2.Files ∧
      ((([MakeFile (ascii "foo.cpp") none, MakeFile (ascii "bar.cpp") none] : List File) ≠ [] ∨
          SortedByName (ewpOf testFiles).Files) →
        SortedByName e1.Files ∧ SortedByName e2.Files) :=
  insertAll_order_independent (ewpOf testFiles) _ _ (List.Perm.swap _ _ [])

/-! ## InsertFile on a sorted document -/

theorem names_append (fs gs : List File) : names (fs ++ gs) = names fs ++ names gs := by
  simp [names]

theorem names_sorted (fs : List File) (h : SortedByName fs) : (names fs).Pairwise strLe :=
  List.pairwise_map.2 h

/-- Taking one occurrence of a name out of a sorted name sequence that
rearranges `old ++ [x]`, `old` sorted, leaves `old`. -/
theorem remove_inserted_name (old new pre post : List GoString) (x : GoString)
    (hp : new.Perm (old ++ [x])) (hnew : new.Pairwise strLe) (hold : old.Pairwise strLe)
    (e : new = pre ++ x :: post) : old = pre ++ post := by
  haveI : IsAntisymm GoString strLe := ⟨strLe_antisymm⟩
  subst e
  have h1 : (x :: (pre ++ post)).Perm (x :: old) :=
    List.perm_middle.symm.trans (hp.trans (List.perm_append_singleton x old))
  have h2 : (pre ++ post).Pairwise strLe :=
    List.Pairwise.sublist (List.Sublist.append_left (List.sublist_cons_self x post) pre) hnew
  exact (List.eq_of_perm_of_sorted (r := strLe) h1.cons_inv h2 hold).symm

/-- In a sorted name sequence the positions of one name are an interval. -/
theorem name_run_contiguous (l : List GoString) (h : l.Pairwise strLe) (n : GoString)
    (i k j : Nat) (hik : i ≤ k) (hkj : k ≤ j)
    (hi : l[i]? = some n) (hj : l[j]? = some n) : l[k]? = some n := by
  obtain ⟨bi, ei⟩ := List.getElem?_eq_some.1 hi
  obtain ⟨bj, ej⟩ := List.getElem?_eq_some.1 hj
  have bk : k < l.length := Nat.lt_of_le_of_lt hkj bj
  rw [List.getElem?_eq_getElem bk]
  congr 1
  rcases Nat.eq_or_lt_of_le hik with e | lik
  · subst e; exact ei
  · rcases Nat.eq_or_lt_of_le hkj with e | lkj
    · subst e; exact ej
    · have r1 := List.pairwise_iff_getElem.1 h i k bi bk lik
      have r2 := List.pairwise_iff_getElem.1 h k j bk bj lkj
      rw [ei] at r1
      rw [ej] at r2
      exact strLe_antisymm _ _ r2 r1

/-- C13: on a document whose Files are sorted by Name, InsertFile(f) returns and
keeps the file order: the result is sorted, its Names are the old Names in
their old order with f.Name put in at one place, and taking one occurrence of
f.Name out of the result, whichever it is, gives the old Name sequence back. -/
theorem InsertFile_keeps_order (ewp : Ewp) (f : File) (hs : SortedByName ewp.Files) :
    ∃ ewp1, ewp.InsertFile f = some ewp1 ∧
      SortedByName ewp1.Files ∧
      (∃ pre post, names ewp1.Files = pre ++ f.Name :: post ∧ names ewp.Files = pre ++ post) ∧
      (∀ pre post, names ewp1.Files = pre ++ f.Name :: post → names ewp.Files = pre ++ post) ∧
      (names ewp1.Files).erase f.Name = names ewp.Files := by
  obtain ⟨fs, h, hp, hn⟩ := InsertFile_spec ewp f
  have hpn : (names fs).Perm (names ewp.Files ++ [f.Name]) := by
    have := hp.map (fun x : File => x.Name)
    simpa [names] using this
  have key : ∀ pre post, names fs = pre ++ f.Name :: post → names ewp.Files = pre ++ post :=
    fun pre post e =>
      remove_inserted_name _ _ pre post f.Name hpn (names_sorted fs hn) (names_sorted _ hs) e
  have hmem : f.Name ∈ names fs := hpn.symm.subset (by simp)
  refine ⟨_, h, hn, ?_, key, ?_⟩
  · obtain ⟨pre, post, e⟩ := List.append_of_mem hmem
    exact ⟨pre, post, e, key pre post e⟩
  · obtain ⟨pre, post, _, e, e2⟩ := List.exists_erase_eq hmem
    show (names fs).erase f.Name = names ewp.Files
    rw [e2, key pre post e]

/-- A use of C13: foo.cpp inserted into the sorted document of boost.cpp and
main.cpp. -/
theorem InsertFile_keeps_order_witness :
    ∃ ewp1,
      (ewpOf [MakeFile (ascii "boost.cpp") none, MakeFile (ascii "main.cpp") none]).InsertFile
          (MakeFile (ascii "foo.cpp") none) = some ewp1 ∧
      SortedByName ewp1.Files ∧
      (∃ pre post, names ewp1.Files = pre ++ (MakeFile (ascii "foo.cpp") none).Name :: post ∧
        names (ewpOf [MakeFile (ascii "boost.cpp") none,
          MakeFile (ascii "main.cpp") none]).Files = pre ++ post) ∧
      (∀ pre post, names ewp1.Files = pre ++ (MakeFile (ascii "foo.cpp") none).Name :: post →
        names (ewpOf [MakeFile (ascii "boost.cpp") none,
          MakeFile (ascii "main.cpp") none]).Files = pre ++ post) ∧
      (names ewp1.Files).erase (MakeFile (ascii "foo.cpp") none).Name
        = names (ewpOf [MakeFile (ascii "boost.cpp") none,
          MakeFile (ascii "main.cpp") none]).Files :=
  InsertFile_keeps_order _ _ (by decide)

/-! ## Entries of one name after InsertFile -/

theorem strLess_of_strLess_of_strLe (n s t : GoString)
    (h1 : strLess n s = true) (h2 : strLe s t) : strLess n t = true := by
  rcases h2 with e | l
  · rw [← e]; exact h1
  · exact strLess_trans n s t h1 l

/-- A sorted file list is its entries below a name, then those of that name,
then those above it. -/
theorem sorted_split_at_name (n : GoString) : ∀ l : List File, SortedByName l →
    l = l.filter (fun y => strLess y.Name n) ++ l.filter (fun y => decide (y.Name = n))
          ++ l.filter (fun y => strLess n y.Name)
  | [], _ => rfl
  | x :: l, h => by
    have hx := List.pairwise_cons.1 h
    have ih := sorted_split_at_name n l hx.2
    cases h1 : strLess x.Name n
    · cases h2 : strLess n x.Name
      · have e : x.Name = n := strLess_connex _ _ h1 h2
        have f1 : l.filter (fun y => strLess y.Name n) = [] := by
          refine List.filter_eq_nil_iff.2 fun y hy => ?_
          have := (strLess_false_iff x.Name y.Name).2 (hx.1 y hy)
          rw [e] at this
          simp [this]
        rw [f1] at ih
        subst e
        simp only [List.filter_cons, h1, f1, decide_True, if_true, List.nil_append,
          List.cons_append]
        simp only [Bool.false_eq_true, if_false, List.nil_append]
        exact congrArg (List.cons x) (by simpa using ih)
      · have all : ∀ y ∈ l, strLess n y.Name = true :=
          fun y hy => strLess_of_strLess_of_strLe n x.Name y.Name h2 (hx.1 y hy)
        have ne : ¬ x.Name = n := by
          intro e
          rw [e, strLess_irrefl] at h2
          exact Bool.noConfusion h2
        have f1 : l.filter (fun y => strLess y.Name n) = [] := by
          refine List.filter_eq_nil_iff.2 fun y hy => ?_
          simp [strLess_asymm _ _ (all y hy)]
        have f2 : l.filter (fun y => decide (y.Name = n)) = [] := by
          refine List.filter_eq_nil_iff.2 fun y hy => ?_
          have hy2 := all y hy
          intro e
          rw [of_decide_eq_true e, strLess_irrefl] at hy2
          exact Bool.noConfusion hy2
        have f3 : l.filter (fun y => strLess n y.Name) = l :=
          List.filter_eq_self.2 all
        simp [List.filter_cons, h1, h2, ne, f1, f2, f3]
    · have h2 : strLess n x.Name = false := strLess_asymm _ _ h1
      have ne : ¬ x.Name = n := by
        intro e
        rw [e, strLess_irrefl] at h1
        exact Bool.noConfusion h1
      simp only [List.filter_cons, h1, h2, ne, decide_False, if_true, if_false]
      simpa using ih

/-- C14: after InsertFile(f) the entries named f.Name occupy a contiguous run of
positions in Files: Files is a block of entries with other names, then the
block of all entries named f.Name, f among them, then another block of other
names; so every position between two entries named f.Name holds an entry
named f.Name. -/
theorem InsertFile_equal_names_adjacent (ewp : Ewp) (f : File) :
    ∃ ewp1, ewp.InsertFile f = some ewp1 ∧
      (∃ pre run post, ewp1.Files = pre ++ run ++ post ∧ f ∈ run ∧
        (∀ x ∈ run, x.Name = f.Name) ∧ (∀ x ∈ pre, x.Name ≠ f.Name) ∧
        (∀ x ∈ post, x.Name ≠ f.Name)) ∧
      (∀ (i k j : Nat) (a b : File), i ≤ k → k ≤ j →
        ewp1.Files[i]? = some a → ewp1.Files[j]? = some b →
        a.Name = f.Name → b.Name = f.Name →
        ∃ c, ewp1.Files[k]? = some c ∧ c.Name = f.Name) := by
  obtain ⟨fs, h, hp, hn⟩ := InsertFile_spec ewp f
  refine ⟨_, h, ?_, ?_⟩
  · refine ⟨_, _, _, sorted_split_at_name f.Name fs hn, ?_, ?_, ?_, ?_⟩
    · exact List.mem_filter.2 ⟨hp.symm.subset (by simp), by simp⟩
    · intro x hx
      exact of_decide_eq_true (List.mem_filter.1 hx).2
    · intro x hx e
      have := (List.mem_filter.1 hx).2
      rw [e, strLess_irrefl] at this
      exact Bool.noConfusion this
    · intro x hx e
      have := (List.mem_filter.1 hx).2
      rw [e, strLess_irrefl] at this
      exact Bool.noConfusion this
  · intro i k j a b hik hkj hi hj ha hb
    show ∃ c, fs[k]? = some c ∧ c.Name = f.Name
    have hi2 : (names fs)[i]? = some f.Name := by simp [names, hi, ha]
    have hj2 : (names fs)[j]? = some f.Name := by simp [names, hj, hb]
    have hk2 := name_run_contiguous (names fs) (names_sorted fs hn) f.Name i k j hik hkj hi2 hj2
    simp only [names, List.getElem?_map] at hk2
    exact Option.map_eq_some'.1 hk2

set_option maxRecDepth 100000 in
/-- A use of C14: a second boost.h, with an exclusion, inserted into the six test
entries sits next to the first one. -/
theorem InsertFile_equal_names_adjacent_witness :
    (∃ ewp1, (ewpOf testFiles).InsertFile (MakeFile (ascii "boost.h") (some [ascii "Debug"]))
        = some ewp1 ∧
      names ewp1.Files = [ascii "$PROJ_DIR$\\boost.cpp", ascii "$PROJ_DIR$\\boost.h",
        ascii "$PROJ_DIR$\\boost.h", ascii "$PROJ_DIR$\\gmock\\gmock.h",
        ascii "$PROJ_DIR$\\gtest\\gtest.h", ascii "$PROJ_DIR$\\main.cpp",
        ascii "$PROJ_DIR$\\math.h"]) ∧
    (∃ ewp1, (ewpOf testFiles).InsertFile (MakeFile (ascii "boost.h") (some [ascii "Debug"]))
        = some ewp1 ∧
      ∃ pre run post, ewp1.Files = pre ++ run ++ post ∧
        MakeFile (ascii "boost.h") (some [ascii "Debug"]) ∈ run) := by
  refine ⟨?_, ?_⟩
  · obtain ⟨fs, h, hp, hn⟩ := InsertFile_spec (ewpOf testFiles)
      (MakeFile (ascii "boost.h") (some [ascii "Debug"]))
    refine ⟨_, h, ?_⟩
    obtain ⟨srt, h1, h2, h3⟩ := sortSort_spec
      (testFiles ++ [MakeFile (ascii "boost.h") (some [ascii "Debug"])])
    rw [names_eq_of_perm_of_sorted fs srt (hp.trans h2.symm) hn h3]
    have e : (sortSort (testFiles ++ [MakeFile (ascii "boost.h") (some [ascii "Debug"])])).map
        names = some [ascii "$PROJ_DIR$\\boost.cpp", ascii "$PROJ_DIR$\\boost.h",
        ascii "$PROJ_DIR$\\boost.h", ascii "$PROJ_DIR$\\gmock\\gmock.h",
        ascii "$PROJ_DIR$\\gtest\\gtest.h", ascii "$PROJ_DIR$\\main.cpp",
        ascii "$PROJ_DIR$\\math.h"] := by decide
    rw [h1] at e
    exact Option.some.inj e
  · obtain ⟨ewp1, h, ⟨pre, run, post, e, hf, _⟩, _⟩ :=
      InsertFile_equal_names_adjacent (ewpOf testFiles)
        (MakeFile (ascii "boost.h") (some [ascii "Debug"]))
    exact ⟨ewp1, h, pre, run, post, e, hf⟩

/-! ## Contains after InsertFile, and what InsertFile leaves alone -/

/-- C15: after InsertFile(f), Contains(f) is true, and Contains(g) is true exactly
when it was true before the insertion or g.Name equals f.Name. -/
theorem Contains_after_InsertFile (ewp : Ewp) (f g : File) :
    ∃ ewp1, ewp.InsertFile f = some ewp1 ∧
      ewp1.Contains f = true ∧
      (ewp1.Contains g = true ↔ (ewp.Contains g = true ∨ g.Name = f.Name)) := by
  obtain ⟨fs, h, hp, _⟩ := InsertFile_spec ewp f
  refine ⟨_, h, ?_, ?_⟩
  · exact (containsLoop_iff f fs).2 ⟨f, hp.symm.subset (by simp), rfl⟩
  · show containsLoop g fs = true ↔ (containsLoop g ewp.Files = true ∨ g.Name = f.Name)
    rw [containsLoop_iff, containsLoop_iff]
    constructor
    · rintro ⟨x, hx, e⟩
      rcases List.mem_append.1 (hp.subset hx) with m | m
      · exact Or.inl ⟨x, m, e⟩
      · rw [List.mem_singleton.1 m] at e
        exact Or.inr e.symm
    · rintro (⟨x, hx, e⟩ | e)
      · exact ⟨x, hp.symm.subset (List.mem_append_left _ hx), e⟩
      · exact ⟨f, hp.symm.subset (by simp), e.symm⟩

/-- C16: InsertFile(f) changes only the Files field: FileVersion, the
Configuration blocks and the Group blocks, contents and order, and XMLName are
after the call what they were before. -/
theorem InsertFile_frame (ewp : Ewp) (f : File) :
    ∃ ewp1, ewp.InsertFile f = some ewp1 ∧
      ewp1.FileVersion = ewp.FileVersion ∧
      ewp1.Configuration = ewp.Configuration ∧
      ewp1.Group = ewp.Group ∧
      ewp1.XMLName = ewp.XMLName ∧
      ewp1 = { ewp with Files := ewp1.Files } := by
  obtain ⟨fs, h, _, _⟩ := InsertFile_spec ewp f
  exact ⟨_, h, rfl, rfl, rfl, rfl, rfl⟩

/-! ## FileName: totality and the last segment -/

namespace strings

/-- The last segment of a split exists, holds no separator, and is the whole
string or what follows its last separator. -/
theorem last_segment_spec (sep : Byte) : ∀ (n : Nat) (s : GoString), s.length < n →
    ∃ r, (Split s sep).getLast? = some r ∧ sep ∉ r ∧ (s = r ∨ ∃ p, s = p ++ sep :: r)
  | 0, _, h => absurd h (Nat.not_lt_zero _)
  | n + 1, s, h => by
    rcases first_separator sep s with hs | ⟨a, b, e, ha⟩
    · exact ⟨s, by rw [Split_of_not_mem sep s hs]; rfl, hs, Or.inl rfl⟩
    · subst e
      have hb : b.length < n := by
        simp only [List.length_append, List.length_cons] at h
        omega
      obtain ⟨r, h1, h2, h3⟩ := last_segment_spec sep n b hb
      refine ⟨r, by rw [getLast?_Split_append sep a b ha, h1], h2, Or.inr ?_⟩
      rcases h3 with e | ⟨p, e⟩
      · exact ⟨a, by rw [← e]⟩
      · exact ⟨a ++ sep :: p, by rw [e]; simp⟩

/-- The last segment of a string that ends in the separator is empty. -/
theorem getLast?_Split_trailing (sep : Byte) : ∀ (n : Nat) (s : GoString), s.length < n →
    (Split (s ++ [sep]) sep).getLast? = some []
  | 0, _, h => absurd h (Nat.not_lt_zero _)
  | n + 1, s, h => by
    rcases first_separator sep s with hs | ⟨a, b, e, ha⟩
    · rw [getLast?_Split_append sep s [] hs, Split_of_not_mem sep [] (by simp)]
      rfl
    · subst e
      have hb : b.length < n := by
        simp only [List.length_append, List.length_cons] at h
        omega
      have e2 : a ++ sep :: b ++ [sep] = a ++ sep :: (b ++ [sep]) := by simp
      rw [e2, getLast?_Split_append sep a _ ha]
      exact getLast?_Split_trailing sep n b hb

end strings

/-- C17: FileName is total: for every Name the split on the backslash has at
least one segment, so the index of the last segment is in range and the call
returns; it returns the empty string for the empty Name and for a Name that
ends in a backslash. -/
theorem FileName_total :
    (∀ f : File, 1 ≤ (strings.Split f.Name backslash).length ∧
      (strings.Split f.Name backslash).length - 1 < (strings.Split f.Name backslash).length ∧
      ∃ w, f.FileName = some w) ∧
    (∀ e : Option Excluded, File.FileName ⟨[], e⟩ = some []) ∧
    (∀ (s : GoString) (e : Option Excluded), File.FileName ⟨s ++ [backslash], e⟩ = some []) := by
  refine ⟨fun f => ?_, fun e => rfl, fun s e => ?_⟩
  · obtain ⟨h1, _, _⟩ := strings.Split_spec backslash _ f.Name (Nat.lt_succ_self _)
    have hl : 1 ≤ (strings.Split f.Name backslash).length :=
      List.length_pos.2 h1
    refine ⟨hl, by omega, ?_⟩
    exact ⟨_, by rw [FileName_eq_getLast?, List.getLast?_eq_getLast _ h1]⟩
  · rw [FileName_eq_getLast?]
    exact strings.getLast?_Split_trailing backslash _ s (Nat.lt_succ_self _)

/-- C18: the string r that FileName returns holds no backslash and is a suffix
of Name, Name being r itself or some prefix, one backslash, then r; and r is
the longest suffix of Name without backslash: every such suffix is a suffix of
r and so no longer than r. -/
theorem FileName_longest_suffix (f : File) :
    ∃ r, f.FileName = some r ∧ backslash ∉ r ∧ r <:+ f.Name ∧
      (f.Name = r ∨ ∃ p, f.Name = p ++ backslash :: r) ∧
      (∀ t : GoString, t <:+ f.Name → backslash ∉ t → t <:+ r ∧ t.length ≤ r.length) := by
  obtain ⟨r, h1, h2, h3⟩ := strings.last_segment_spec backslash _ f.Name (Nat.lt_succ_self _)
  have hsuf : r <:+ f.Name := by
    rcases h3 with e | ⟨p, e⟩
    · rw [e]
    · exact ⟨p ++ [backslash], by rw [e]; simp⟩
  refine ⟨r, by rw [FileName_eq_getLast?, h1], h2, hsuf, h3, ?_⟩
  intro t ht hb
  have key : t.length ≤ r.length := by
    rcases h3 with e | ⟨p, e⟩
    · rw [e] at ht; exact ht.length_le
    · by_contra hlt
      have hlen : (backslash :: r).length ≤ t.length := by
        simp only [List.length_cons]
        omega
      have h4 : (backslash :: r) <:+ f.Name := ⟨p, e.symm⟩
      have h5 : (backslash :: r) <:+ t := List.suffix_of_suffix_length_le h4 ht hlen
      exact hb (h5.subset (by simp))
  exact ⟨List.suffix_of_suffix_length_le ht hsuf key, key⟩

/-- A use of C18 on the name of gmock\gmock.h: whatever suffix of the Name holds no
backslash is a suffix of what FileName returns. -/
theorem FileName_longest_suffix_witness :
    ∃ r, File.FileName ⟨ascii "$PROJ_DIR$\\gmock\\gmock.h", none⟩ = some r ∧ backslash ∉ r ∧
      r <:+ ascii "$PROJ_DIR$\\gmock\\gmock.h" ∧
      (ascii "$PROJ_DIR$\\gmock\\gmock.h" = r ∨
        ∃ p, ascii "$PROJ_DIR$\\gmock\\gmock.h" = p ++ backslash :: r) ∧
      (∀ t : GoString, t <:+ ascii "$PROJ_DIR$\\gmock\\gmock.h" → backslash ∉ t →
        t <:+ r ∧ t.length ≤ r.length) :=
  FileName_longest_suffix ⟨ascii "$PROJ_DIR$\\gmock\\gmock.h", none⟩

end Iarewp
